import Mathlib

/-!
# Verification of the brain-teaser pronunciation/audio pipeline

Shallow embedding of the data-preparation scripts of the brain-teaser
repository: the character extractor, the reading dictionary, the reading
resolver (`processQuestion` in `generate_pronunciation.mjs`), the
content-addressed audio generation run (`generate_audio.mjs`), the
TTS synthesizer's retry loop, the bounded-concurrency batch runner
(`runPool`), the id-filtering script and the content-moderation batch
filter (`filter_questions.mjs`).  JS objects are modelled as
insertion-ordered association lists, optional/absent fields as `Option`,
and JS string truthiness explicitly.  External calls (LLM, TTS, disk)
are abstracted as oracle parameters.

The file is organised as definitions first, theorems second.
-/

namespace BrainTeaser

/-- JS truthiness of an optional string field: the field is present and
the string is nonempty. -/
def truthy : Option String → Bool
  | none => false
  | some s => !(s == "")

/-- A per-character pronunciation entry as stored in a record's
`pronunciation` object.  All fields are optional, mirroring the JSON. -/
structure Entry where
  pinyin : Option String := none
  ttsText : Option String := none
  audioFile : Option String := none
deriving Repr, DecidableEq

/-- One known reading of a character, as stored in the dictionary
(`pronunciation_dict.json`): `{ pinyin, ttsText }`. -/
structure Reading where
  pinyin : String
  ttsText : String
deriving Repr, DecidableEq

/-- A record's `pronunciation` object: character → entry, insertion ordered. -/
abbrev PronMap := List (Char × Entry)

/-- An answer option of a question. -/
structure QOption where
  oid : String
  text : String
deriving Repr, DecidableEq

/-- A question record from `questions.json`. -/
structure Question where
  id : Nat
  text : String
  options : List QOption
  answer : String := ""
  pronunciation : Option PronMap := none
deriving Repr, DecidableEq

/-! ### Character extractor (`extractChineseChars`) -/

/-- The test `/[一-鿿]/.test(ch)` on a single code point. -/
def isChineseChar (c : Char) : Bool :=
  0x4e00 ≤ c.toNat && c.toNat ≤ 0x9fff

/-- `extractChineseChars`: `[...text].filter(ch => /[一-鿿]/.test(ch))`. -/
def extractChineseChars (text : String) : List Char :=
  text.toList.filter isChineseChar

/-- Helper for `dedupFirst`: JS `Set` insertion semantics with an explicit
set of already-seen elements. -/
def dedupFirstAux [DecidableEq α] (seen : List α) : List α → List α
  | [] => []
  | x :: xs => if x ∈ seen then dedupFirstAux seen xs else x :: dedupFirstAux (x :: seen) xs

/-- `[...new Set(l)]`: duplicate-free, keeping the first occurrence of each
element, in order. -/
def dedupFirst [DecidableEq α] (l : List α) : List α := dedupFirstAux [] l

/-- Character extraction as used by the resolver on a single text:
filter to the CJK block, then deduplicate keeping first occurrences
(`[...new Set(extractChineseChars(text))]`). -/
def extractUniqueChars (text : String) : List Char :=
  dedupFirst (extractChineseChars text)

/-! ### Reading dictionary -/

/-- The dictionary `{ char: [ { pinyin, ttsText } ] }`, insertion ordered. -/
abbrev Dict := List (Char × List Reading)

/-- JS `dict[char]`: `none` when the key is absent. -/
def dictLookup : Dict → Char → Option (List Reading)
  | [], _ => none
  | p :: d, c => if p.1 = c then some p.2 else dictLookup d c

/-- The list of known readings of a character (empty when absent). -/
def dictReadings (d : Dict) (c : Char) : List Reading :=
  (dictLookup d c).getD []

/-- `isPolyphonic(dict, char) = dict[char] && dict[char].length > 1`. -/
def isPolyphonic (d : Dict) (c : Char) : Bool :=
  match dictLookup d c with
  | some rs => decide (1 < rs.length)
  | none => false

/-- Adding one reading: `if (!dict[char]) dict[char] = []` followed by
`if (!dict[char].some(r => r.pinyin === info.pinyin)) dict[char].push(...)`.
Also returns whether a reading was actually pushed (the `added` counter). -/
def dictAddCount (d : Dict) (ch : Char) (r : Reading) : Dict × Bool :=
  match dictLookup d ch with
  | none => (d ++ [(ch, [r])], true)
  | some rs =>
      if rs.any (fun x => x.pinyin == r.pinyin) then (d, false)
      else (d.map (fun p => if p.1 = ch then (p.1, p.2 ++ [r]) else p), true)

/-- `dictAddCount`, forgetting the counter. -/
def dictAdd (d : Dict) (ch : Char) (r : Reading) : Dict :=
  (dictAddCount d ch r).1

/-- One `(char, info)` step of `buildDictFromQuestions`: entries lacking a
truthy `pinyin` or a truthy `ttsText` are skipped. -/
def ingestInfo (acc : Dict × Nat) (ch : Char) (e : Entry) : Dict × Nat :=
  match e.pinyin, e.ttsText with
  | some p, some t =>
      if p == "" || t == "" then acc
      else
        let r := dictAddCount acc.1 ch ⟨p, t⟩
        (r.1, if r.2 then acc.2 + 1 else acc.2)
  | _, _ => acc

/-- The inner loop of `buildDictFromQuestions` over one record's
`pronunciation` object. -/
def ingestQuestion (acc : Dict × Nat) (q : Question) : Dict × Nat :=
  match q.pronunciation with
  | none => acc
  | some m => m.foldl (fun acc p => ingestInfo acc p.1 p.2) acc

/-- `buildDictFromQuestions(questions)` with the loaded (or cold-start empty)
dictionary passed in as `d0`.  Returns the dictionary and the count added. -/
def buildDictFromQuestions (qs : List Question) (d0 : Dict) : Dict × Nat :=
  qs.foldl ingestQuestion (d0, 0)

/-! ### Reading resolver (`processQuestion`) -/

/-- `[...new Set(allTexts.flatMap(extractChineseChars))]` over the record's
prompt and option texts. -/
def allCharsOf (q : Question) : List Char :=
  dedupFirst ((q.text :: q.options.map (·.text)).flatMap extractChineseChars)

/-- JS object lookup in a `pronunciation` map. -/
def pronGet : PronMap → Char → Option Entry
  | [], _ => none
  | p :: m, ch => if p.1 = ch then some p.2 else pronGet m ch

/-- `question.pronunciation?.[ch]?.ttsText`. -/
def pronTts (q : Question) (ch : Char) : Option String :=
  match q.pronunciation with
  | none => none
  | some m =>
      match pronGet m ch with
      | none => none
      | some e => e.ttsText

/-- The characters of the record that still need a ttsText:
`allChars.filter(ch => !question.pronunciation?.[ch]?.ttsText)`. -/
def needsTtsOf (q : Question) : List Char :=
  (allCharsOf q).filter (fun ch => !(truthy (pronTts q ch)))

/-- The per-character partition loop of `processQuestion`: absent characters
and polyphonic characters go to `needsApi`; a character with a sole reading
goes to `resolved` with `{...dict[char][0]}` (the spread of `undefined`
being the empty object when the reading list is empty). -/
def partitionChars (d : Dict) : List Char → List (Char × Option Reading) × List Char
  | [] => ([], [])
  | ch :: rest =>
      let acc := partitionChars d rest
      match dictLookup d ch with
      | none => (acc.1, ch :: acc.2)
      | some rs =>
          if isPolyphonic d ch then (acc.1, ch :: acc.2)
          else ((ch, rs.head?) :: acc.1, acc.2)

/-- JS object assignment `m[ch] = e`: update in place when the key exists,
append otherwise. -/
def pronSet (m : PronMap) (ch : Char) (e : Entry) : PronMap :=
  if m.any (fun p => p.1 == ch) then m.map (fun p => if p.1 = ch then (p.1, e) else p)
  else m ++ [(ch, e)]

/-- `{...question.pronunciation[char], ...data}`: the base entry (or the
empty object) with `pinyin`/`ttsText` overridden when `data` carries a
reading. -/
def mergeReading (base : Option Entry) : Option Reading → Entry
  | none => base.getD {}
  | some r => { base.getD {} with pinyin := some r.pinyin, ttsText := some r.ttsText }

/-- The merge loop `for ([char, data] of Object.entries(resolved))
question.pronunciation[char] = {...question.pronunciation[char], ...data}`. -/
def applyResolved (m : PronMap) (rl : List (Char × Option Reading)) : PronMap :=
  rl.foldl (fun m p => pronSet m p.1 (mergeReading (pronGet m p.1) p.2)) m

/-- The outcome of the external LLM call: the thrown error, or the parsed
per-character JSON object. -/
inductive ApiOutcome
  | err (msg : String)
  | ok (result : List (Char × Reading))

/-- The merge loop over `needsApi` after a successful API call: characters
missing from the response are left untouched; otherwise the record entry is
merged and the reading is appended to the dictionary (dedup by pinyin). -/
def applyApiResult (m : PronMap) (d : Dict) (needsApi : List Char)
    (apiResult : List (Char × Reading)) : PronMap × Dict :=
  needsApi.foldl (fun acc ch =>
    match (apiResult.find? (fun p => p.1 == ch)).map (·.2) with
    | none => acc
    | some r => (pronSet acc.1 ch (mergeReading (pronGet acc.1 ch) (some r)),
                 dictAdd acc.2 ch r)) (m, d)

/-- The status values returned by `processQuestion`. -/
inductive PStatus
  | skipped
  | fromDict
  | okApi
  | errorApi
deriving Repr, DecidableEq

/-- The outcome of `processQuestion`: status, the (possibly mutated) record
and dictionary, and whether the external LLM call was issued. -/
structure PResult where
  status : PStatus
  question : Question
  dict : Dict
  apiCalled : Bool
deriving Repr, DecidableEq

/-- `processQuestion(question, dict)` of `generate_pronunciation.mjs`:
skip records with no CJK characters or with every character already
carrying a truthy ttsText; resolve what the dictionary determines uniquely;
call the LLM (abstracted as `api`) only for the remainder. -/
def processQuestion (api : ApiOutcome) (q : Question) (d : Dict) : PResult :=
  if (allCharsOf q).isEmpty then ⟨.skipped, q, d, false⟩
  else if (needsTtsOf q).isEmpty then ⟨.skipped, q, d, false⟩
  else
    let part := partitionChars d (needsTtsOf q)
    let m1 := applyResolved (q.pronunciation.getD []) part.1
    if part.2.isEmpty then ⟨.fromDict, { q with pronunciation := some m1 }, d, false⟩
    else
      match api with
      | .err _ => ⟨.errorApi, { q with pronunciation := some m1 }, d, true⟩
      | .ok apiResult =>
          let r := applyApiResult m1 d part.2 apiResult
          ⟨.okApi, { q with pronunciation := some r.1 }, r.2, true⟩

/-- The whole resolver run over the record list (one serialisation of the
worker pool, which shares the dictionary): returns the updated records, the
updated dictionary, and whether any external call was issued. -/
def processAll (api : ApiOutcome) (d : Dict) (qs : List Question) :
    List Question × Dict × Bool :=
  qs.foldl (fun acc q =>
    let r := processQuestion api q acc.2.1
    (acc.1 ++ [r.question], r.dict, acc.2.2 || r.apiCalled)) ([], d, false)

/-! ### Id filter + re-index script (`removeIds`) -/

/-- The identifiers listed for removal in the filtering script. -/
def removeIdsList : List Nat :=
  [45, 55, 72, 85, 91, 98, 99, 103, 51, 64, 86, 89, 68, 108, 109, 43, 31]

/-- `questions.filter(q => !removeIds.has(q.id))`. -/
def filterRemoveIds (qs : List Question) : List Question :=
  qs.filter (fun q => !(removeIdsList.contains q.id))

/-- `filtered.forEach((q, i) => { q.id = i + 1 })`, with `k` the number of
records already re-indexed. -/
def reindexFrom (k : Nat) : List Question → List Question
  | [] => []
  | q :: qs => { q with id := k + 1 } :: reindexFrom (k + 1) qs

/-- The whole filtering script: drop the listed ids, then re-issue dense ids. -/
def filterAndReindex (qs : List Question) : List Question :=
  reindexFrom 0 (filterRemoveIds qs)

/-- Everything of a record except its id. -/
def contentOf (q : Question) : String × List QOption × String × Option PronMap :=
  (q.text, q.options, q.answer, q.pronunciation)

/-- A concrete 113-record set with the dense identifiers 1..113. -/
def sampleRecords113 : List Question :=
  (List.range 113).map (fun i =>
    { id := i + 1, text := "", options := [], answer := "", pronunciation := none })

/-! ### Content-addressed audio generation (`generate_audio.mjs` main) -/

/-- A back-reference into the record set: `{ qIndex, char }`. -/
abbrev ARef := Nat × Char

/-- One value of the hash-keyed `ttsMap`: the first-seen text for the hash,
and every reference needing that audio. -/
structure Bucket where
  ttsText : String
  refs : List ARef
deriving Repr, DecidableEq

/-- One entry of the collection loop: an entry with a truthy `ttsText`
yields a `(ref, text)` pair. -/
def refEntryOf (qi : Nat) (pe : Char × Entry) : Option (ARef × String) :=
  match pe.2.ttsText with
  | some t => if t = "" then none else some (((qi, pe.1) : ARef), t)
  | none => none

/-- The collection loop over all records (`for qi; for [char, info]`),
with `qi` the running question index: every entry with a truthy `ttsText`
yields a `(ref, text)` pair. -/
def collectRefsFrom (qi : Nat) : List Question → List (ARef × String)
  | [] => []
  | q :: rest =>
      (match q.pronunciation with
       | none => []
       | some m => m.filterMap (refEntryOf qi)) ++ collectRefsFrom (qi + 1) rest

/-- All `(ref, ttsText)` pairs of the record set, in iteration order. -/
def collectRefs (qs : List Question) : List (ARef × String) :=
  collectRefsFrom 0 qs

/-- Inserting one pair into the `ttsMap`: an existing bucket for the hash
gains the reference; otherwise a new bucket is appended storing the text. -/
def ttsMapInsert (hash : String → String) (m : List (String × Bucket))
    (rt : ARef × String) : List (String × Bucket) :=
  if m.any (fun p => p.1 == hash rt.2) then
    m.map (fun p => if p.1 = hash rt.2 then
      (p.1, { p.2 with refs := p.2.refs ++ [rt.1] }) else p)
  else m ++ [(hash rt.2, ⟨rt.2, [rt.1]⟩)]

/-- The `ttsMap` of `main`: unique ttsTexts grouped by truncated hash. -/
def buildTtsMap (hash : String → String) (qs : List Question) : List (String × Bucket) :=
  (collectRefs qs).foldl (ttsMapInsert hash) []

/-- `ttsMap.get(hash)`. -/
def bucketLookup : List (String × Bucket) → String → Option Bucket
  | [], _ => none
  | p :: m, h => if p.1 = h then some p.2 else bucketLookup m h

/-- All references across all buckets. -/
def allRefs (m : List (String × Bucket)) : List ARef :=
  m.flatMap (fun p => p.2.refs)

/-- The pronunciation entry a reference points at. -/
def entryAt (qs : List Question) (r : ARef) : Option Entry :=
  match qs[r.1]? with
  | none => none
  | some q =>
      match q.pronunciation with
      | none => none
      | some m => pronGet m r.2

/-- `questions[qi].pronunciation[ch].audioFile`. -/
def audioAt (qs : List Question) (r : ARef) : Option String :=
  match entryAt qs r with
  | none => none
  | some e => e.audioFile

/-- `questions[qi].pronunciation[ch].ttsText`. -/
def ttsAt (qs : List Question) (r : ARef) : Option String :=
  match entryAt qs r with
  | none => none
  | some e => e.ttsText

/-- `questions[ref.qIndex].pronunciation[ref.char].audioFile = audioFile`. -/
def setAudioRef (fname : String) (qs : List Question) (r : ARef) : List Question :=
  match qs[r.1]? with
  | none => qs
  | some q =>
      qs.set r.1
        { q with
          pronunciation := q.pronunciation.map (fun m => m.map (fun pe =>
            if pe.1 = r.2 then (pe.1, { pe.2 with audioFile := some fname }) else pe)) }

/-- `for (const ref of entry.refs) ... audioFile = audioFile`. -/
def applyBucket (fname : String) (b : Bucket) (qs : List Question) : List Question :=
  b.refs.foldl (setAudioRef fname) qs

/-- A conditional pass over a bucket list: every bucket satisfying `cond`
has its hash-derived artifact name wired into all its references. -/
def applyBuckets (cond : String × Bucket → Bool) (bs : List (String × Bucket))
    (qs : List Question) : List Question :=
  bs.foldl (fun qs' p => if cond p then applyBucket (p.1 ++ ".mp3") p.2 qs' else qs') qs

/-- The `toProcess` job list: buckets whose artifact is not on disk. -/
def toProcessOf (onDisk : String → Bool) (tmap : List (String × Bucket)) :
    List (String × Bucket) :=
  tmap.filter (fun p => !(onDisk (p.1 ++ ".mp3")))

/-- The whole audio generation run, abstracted over the hash function, the
disk contents and the synthesis service: phase 1 wires the buckets whose
artifact already exists (no job is queued for them); phase 2 runs the job
list, wiring each bucket whose synthesis succeeds and leaving the
references of a failed job untouched. -/
def runAudio (hash : String → String) (onDisk synthOk : String → Bool)
    (qs : List Question) : List Question :=
  applyBuckets (fun p => synthOk p.2.ttsText) (toProcessOf onDisk (buildTtsMap hash qs))
    (applyBuckets (fun p => onDisk (p.1 ++ ".mp3")) (buildTtsMap hash qs) qs)

/-! ### Audio synthesizer retry loop (`synthesize` in `generate_audio.mjs`) -/

/-- What one attempt of the `synthesize` loop observes, flattened: a non-ok
HTTP response; an ok response whose JSON carries a truthy error `code`; an
ok response whose `output.audio` is neither a URL string nor an object with
a `url`; a failed artifact download; or the downloaded audio bytes. -/
inductive AttemptOutcome
  | httpErr (status : Nat) (body : String)
  | apiErr (code : String) (message : String)
  | badAudioShape (outputText : String)
  | downloadErr (status : Nat)
  | ok (audio : String)

/-- JS `s.includes(pat)`: `pat` occurs as a contiguous substring. -/
def containsSub (pat s : List Char) : Bool :=
  s.tails.any (fun t => pat.isPrefixOf t)

/-- The two rate-limit signals the loop retries on: HTTP status 429, or an
API-level `code` containing `"Throttling"`. -/
def rateLimited : AttemptOutcome → Bool
  | .httpErr status _ => status == 429
  | .apiErr code _ => containsSub "Throttling".toList code.toList
  | _ => false

/-- `Math.pow(2, attempt + 1) * 3000` — 6s, 12s, 24s, 48s, 96s. -/
def backoffMs (attempt : Nat) : Nat := 2 ^ (attempt + 1) * 3000

/-- `const MAX_RETRIES = 5`. -/
def maxRetries : Nat := 5

/-- The result of `synthesize`: the downloaded audio bytes, or the thrown
error message. -/
inductive SynthResult
  | ok (audio : String)
  | err (msg : String)
deriving Repr, DecidableEq

/-- How a single attempt resolves when no retry is taken: every failure is
thrown to the caller, success returns the bytes. -/
def resolveAttempt : AttemptOutcome → SynthResult
  | .httpErr status body => .err ("HTTP " ++ toString status ++ ": " ++ body)
  | .apiErr code message => .err ("API error " ++ code ++ ": " ++ message)
  | .badAudioShape t => .err ("Unexpected audio format: " ++ t)
  | .downloadErr status => .err ("Failed to download audio: " ++ status.repr)
  | .ok audio => .ok audio

/-- The retry loop of `synthesize` (`for attempt = 0; attempt <= MAX_RETRIES`),
with `f` the outcome of each attempt, the slept backoff delays recorded, and
the remaining loop iterations as fuel.  An attempt is retried exactly when
it is rate-limited and `attempt < MAX_RETRIES`; any other outcome resolves
immediately. -/
def synthesizeGo (f : Nat → AttemptOutcome) : Nat → Nat → List Nat → List Nat × SynthResult
  | 0, _, delays => (delays, .err "Max retries exceeded")
  | fuel + 1, attempt, delays =>
      if rateLimited (f attempt) && decide (attempt < maxRetries) then
        synthesizeGo f fuel (attempt + 1) (delays ++ [backoffMs attempt])
      else (delays, resolveAttempt (f attempt))

/-- `synthesize(text)`, abstracted over its network interactions: the slept
backoff delays in order, and the final result. -/
def synthesizeModel (f : Nat → AttemptOutcome) : List Nat × SynthResult :=
  synthesizeGo f (maxRetries + 1) 0 []

/-- The per-job task body of the audio batch: a failed synthesis is caught
and recorded as an error result instead of being re-thrown. -/
inductive TaskResult
  | ok
  | error (msg : String)
deriving Repr, DecidableEq

/-- The `try { await synthesize(...) } catch` wrapper of each audio task. -/
def audioTask (f : Nat → AttemptOutcome) : TaskResult :=
  match (synthesizeModel f).2 with
  | .ok _ => .ok
  | .err m => .error m

/-! ### Bounded-concurrency batch runner (`runPool`) -/

/-- `const SAVE_INTERVAL = 20`. -/
def saveInterval : Nat := 20

/-- A worker of the pool: at the top of its `while` loop, suspended on
`await tasks[i]()`, or returned. -/
inductive WStatus
  | idle
  | awaiting (i : Nat)
  | done
deriving Repr, DecidableEq

/-- The shared state of `runPool`: the results array, the shared
`nextIndex` / `completed` / `lastSave` counters, the recorded
`onCheckpoint` invocations, the workers, and the log of finished task
indices in completion order. -/
structure PoolState (α : Type) where
  results : List (Option α)
  nextIndex : Nat
  completed : Nat
  lastSave : Nat
  checkpoints : List Nat
  workers : List WStatus
  log : List Nat
deriving Repr, DecidableEq

/-- The task index a worker currently holds. -/
def inFlight : WStatus → Option Nat
  | .awaiting i => some i
  | _ => none

/-- One cooperative step of the pool: worker `w` runs from its suspension
point to the next one.  An idle worker atomically claims
`const i = nextIndex++` and starts `await tasks[i]()` (or returns when the
queue is exhausted); a worker whose awaited task completes stores the
result at the task's original index, bumps the shared `completed` counter,
and fires `onCheckpoint(completed)` when
`completed - lastSave >= SAVE_INTERVAL`. -/
def poolStep (tasks : List α) (s : PoolState α) (w : Nat) : PoolState α :=
  match s.workers.get? w with
  | none => s
  | some WStatus.done => s
  | some WStatus.idle =>
      if s.nextIndex < tasks.length then
        { s with nextIndex := s.nextIndex + 1,
                 workers := s.workers.set w (WStatus.awaiting s.nextIndex) }
      else { s with workers := s.workers.set w WStatus.done }
  | some (WStatus.awaiting i) =>
      let completed := s.completed + 1
      let fire := saveInterval ≤ completed - s.lastSave
      { s with results := s.results.set i (tasks.get? i),
               log := s.log ++ [i],
               completed := completed,
               lastSave := if fire then completed else s.lastSave,
               checkpoints := if fire then s.checkpoints ++ [completed] else s.checkpoints,
               workers := s.workers.set w WStatus.idle }

/-- The initial pool state:
`Array.from({length: Math.min(concurrency, tasks.length)}, () => worker())`
with an unset results array. -/
def initPool (tasks : List α) (concurrency : Nat) : PoolState α :=
  { results := List.replicate tasks.length none,
    nextIndex := 0, completed := 0, lastSave := 0, checkpoints := [],
    workers := List.replicate (min concurrency tasks.length) WStatus.idle, log := [] }

/-- A full run of the pool under a cooperative schedule (the sequence of
worker activations chosen by the event loop). -/
def runSched (tasks : List α) (concurrency : Nat) (sched : List Nat) : PoolState α :=
  sched.foldl (poolStep tasks) (initPool tasks concurrency)

/-- All workers have returned, i.e. `await Promise.all(workers)` resolves. -/
def poolTerminal (s : PoolState α) : Bool :=
  s.workers.all (fun w => w == WStatus.done)

/-- The pool invariant maintained by every cooperative step. -/
structure PoolInv (tasks : List α) (s : PoolState α) : Prop where
  hnext : s.nextIndex ≤ tasks.length
  hreslen : s.results.length = tasks.length
  hres : ∀ i, i < tasks.length →
    s.results.get? i = some (if i ∈ s.log then tasks.get? i else none)
  hclaims : (↑(s.workers.filterMap inFlight) + ↑s.log : Multiset Nat) =
    ↑(List.range s.nextIndex)
  hcompleted : s.completed = s.log.length
  hlast : s.lastSave = saveInterval * (s.completed / saveInterval)
  hcheck : s.checkpoints = (List.range (s.completed / saveInterval)).map
    (fun k => saveInterval * (k + 1))
  hdone : WStatus.done ∈ s.workers → s.nextIndex = tasks.length

/-! ### Content-moderation batch filter (`filter_questions.mjs`) -/

/-- One per-question verdict row of the review response:
`{ id, keep, reason }`. -/
structure Verdict where
  vid : Nat
  keep : Bool
  reason : String
deriving Repr, DecidableEq

/-- A JSON value as shape-sniffed by `processBatch`: a top-level array of
verdict rows, an object with named fields, or any other JSON value. -/
inductive JVal
  | arr (items : List Verdict)
  | obj (fields : List (String × JVal))
  | prim

/-- JS property access `parsed[key]` on an object. -/
def jsField : List (String × JVal) → String → Option JVal
  | [], _ => none
  | f :: fs, k => if f.1 = k then some f.2 else jsField fs k

/-- The shape sniffing of `processBatch`: a top-level array; else
`parsed.results` when that is an array; else `parsed.questions` when that
is an array; else the first array among the top-level values
(`Object.values(parsed).find(Array.isArray)`). -/
def findTopArray : JVal → Option (List Verdict)
  | .arr xs => some xs
  | .obj fields =>
      match jsField fields "results" with
      | some (.arr xs) => some xs
      | _ =>
          match jsField fields "questions" with
          | some (.arr xs) => some xs
          | _ => (fields.map (·.2)).findSome? (fun v =>
              match v with
              | .arr xs => some xs
              | _ => none)
  | .prim => none

/-- The outcome of the review call: a thrown error (network failure or
unparsable content), or the parsed JSON. -/
inductive ModOutcome
  | err
  | json (v : JVal)

/-- `processBatch`: on a thrown error, or when no array can be found in the
response, a `keep: true` verdict is returned for every question of the
batch. -/
def processBatch (batch : List Question) : ModOutcome → List Verdict
  | .err => batch.map (fun q => ⟨q.id, true, "api error"⟩)
  | .json v =>
      match findTopArray v with
      | some xs => xs
      | none => batch.map (fun q => ⟨q.id, true, "parse error"⟩)

/-- `allResults.get(q.id)` after inserting every verdict into the map: the
last verdict carrying the question's id wins (`Map.set` overwrites). -/
def verdictFor (verdicts : List Verdict) (i : Nat) : Option Verdict :=
  verdicts.reverse.find? (fun r => r.vid == i)

/-- The keep decision of the main loop: `!result || result.keep`. -/
def keptByModeration (verdicts : List Verdict) (q : Question) : Bool :=
  match verdictFor verdicts q.id with
  | none => true
  | some r => r.keep

/-- The parsed JSON response carries no array under any top-level key: it is
not itself an array, and when it is an object none of its top-level values
is an array. -/
def noTopArray : JVal → Prop
  | .arr _ => False
  | .obj fields => ∀ p ∈ fields, ∀ xs, p.2 ≠ JVal.arr xs
  | .prim => True

/-! ### Concrete witness data -/

/-- A tiny dictionary: 天 has one known reading, 长 has two. -/
def dWit : Dict :=
  [('天', [⟨"tian1", "天空的天"⟩]), ('长', [⟨"chang2", "长短的长"⟩, ⟨"zhang3", "长大的长"⟩])]

/-- A record whose only needed character is 天. -/
def qWitA : Question :=
  { id := 1, text := "天", options := [], answer := "", pronunciation := none }

/-- A record that is already fully resolved (天 has a truthy ttsText). -/
def qWitB : Question :=
  { id := 2, text := "天", options := [], answer := "",
    pronunciation := some [('天', { pinyin := some "tian1", ttsText := some "天空的天" })] }

/-- A record with two characters sharing one ttsText, for the audio witness. -/
def qWitC2 : Question :=
  { id := 3, text := "天长", options := [], answer := "",
    pronunciation := some
      [('天', { pinyin := some "tian1", ttsText := some "天长的天" }),
       ('长', { pinyin := some "chang2", ttsText := some "天长的天" })] }


/-! ## Theorems -/

theorem dedupFirstAux_mem [DecidableEq α] (seen l : List α) (x : α) :
    x ∈ dedupFirstAux seen l ↔ x ∈ l ∧ x ∉ seen := by
  induction l generalizing seen with
  | nil => simp [dedupFirstAux]
  | cons a as ih =>
    simp only [dedupFirstAux]
    by_cases h : a ∈ seen
    · simp only [if_pos h, ih, List.mem_cons]
      constructor
      · rintro ⟨hm, hs⟩; exact ⟨Or.inr hm, hs⟩
      · rintro ⟨hm | hm, hs⟩
        · exact absurd (hm ▸ h) hs
        · exact ⟨hm, hs⟩
    · rw [if_neg h]
      by_cases hxa : x = a
      · subst hxa
        simp [h]
      · simp [ih, hxa]

theorem dedupFirstAux_sublist [DecidableEq α] (seen l : List α) :
    (dedupFirstAux seen l).Sublist l := by
  induction l generalizing seen with
  | nil => simp [dedupFirstAux]
  | cons a as ih =>
    simp only [dedupFirstAux]
    split
    · exact (ih seen).cons a
    · exact (ih (a :: seen)).cons₂ a

theorem dedupFirstAux_nodup [DecidableEq α] (seen l : List α) :
    (dedupFirstAux seen l).Nodup := by
  induction l generalizing seen with
  | nil => simp [dedupFirstAux]
  | cons a as ih =>
    simp only [dedupFirstAux]
    split
    · exact ih seen
    · refine List.Nodup.cons (fun hmem => ?_) (ih (a :: seen))
      rw [dedupFirstAux_mem] at hmem
      exact hmem.2 (List.mem_cons_self a seen)

theorem dedupFirst_mem [DecidableEq α] (l : List α) (x : α) :
    x ∈ dedupFirst l ↔ x ∈ l := by
  simp [dedupFirst, dedupFirstAux_mem]

theorem dedupFirst_nodup [DecidableEq α] (l : List α) : (dedupFirst l).Nodup :=
  dedupFirstAux_nodup [] l

theorem dedupFirst_sublist [DecidableEq α] (l : List α) : (dedupFirst l).Sublist l :=
  dedupFirstAux_sublist [] l

/-- C8: for every input text, character extraction yields a duplicate-free
subsequence of the CJK-filtered character stream (hence ordered by first
occurrence) containing exactly the characters of the text that lie in
U+4E00–U+9FFF; the sample riddle text yields its nine distinct hanzi with
the question mark excluded, and the empty input yields the empty list. -/
theorem extraction_unique_ordered_cjk (text : String) :
    (extractUniqueChars text).Nodup ∧
    (extractUniqueChars text).Sublist (extractChineseChars text) ∧
    (∀ c : Char, c ∈ extractUniqueChars text ↔ c ∈ text.toList ∧ isChineseChar c = true) ∧
    extractUniqueChars "什么东西早晨四条腿？" =
      ['什', '么', '东', '西', '早', '晨', '四', '条', '腿'] ∧
    extractUniqueChars "" = [] := by
  refine ⟨dedupFirst_nodup _, dedupFirst_sublist _, fun c => ?_, by decide, by decide⟩
  rw [extractUniqueChars, dedupFirst_mem, extractChineseChars, List.mem_filter]

theorem reindexFrom_map_id (k : Nat) (l : List Question) :
    (reindexFrom k l).map (·.id) = List.range' (k + 1) l.length := by
  induction l generalizing k with
  | nil => rfl
  | cons q qs ih => simp [reindexFrom, List.range', ih]

theorem reindexFrom_map_content (k : Nat) (l : List Question) :
    (reindexFrom k l).map contentOf = l.map contentOf := by
  induction l generalizing k with
  | nil => rfl
  | cons q qs ih => simp [reindexFrom, contentOf, ih]

theorem reindexFrom_length (k : Nat) (l : List Question) :
    (reindexFrom k l).length = l.length := by
  induction l generalizing k with
  | nil => rfl
  | cons q qs ih => simp [reindexFrom, ih]

/-- C9 counterexample: the script's removal list names 17 identifiers, not 18,
so on a 113-record set with ids 1..113 the filter yields 96 records, not 95. -/
theorem filterAndReindex_not_95 :
    sampleRecords113.length = 113 ∧
    (filterAndReindex sampleRecords113).length = 96 ∧
    ¬ (filterAndReindex sampleRecords113).length = 95 := by
  refine ⟨by decide, by decide, by decide⟩

/-- C9 (amended): filtering a 113-item record set with distinct identifiers,
each listed identifier present, removes the 17 listed identifiers and yields
exactly 96 records whose re-issued identifiers are the dense sequence 1..96,
in the records' original relative order. -/
theorem filterAndReindex_spec (qs : List Question)
    (hlen : qs.length = 113)
    (hnodup : (qs.map (·.id)).Nodup)
    (hall : ∀ i ∈ removeIdsList, i ∈ qs.map (·.id)) :
    (filterAndReindex qs).length = 96 ∧
    (filterAndReindex qs).map (·.id) = List.range' 1 96 ∧
    (filterAndReindex qs).map contentOf = (filterRemoveIds qs).map contentOf := by
  have hflen : (filterRemoveIds qs).length = 96 := by
    have hids : (qs.map (·.id)).length = 113 := by simpa using hlen
    have hperm : List.Perm ((qs.map (·.id)).filter (fun i => removeIdsList.contains i))
        removeIdsList := by
      rw [List.perm_ext_iff_of_nodup (hnodup.filter _) (by decide)]
      intro a
      simp only [List.mem_filter]
      constructor
      · rintro ⟨_, hc⟩; exact List.elem_iff.mp hc
      · intro h; exact ⟨hall a h, List.elem_iff.mpr h⟩
    have hc17 : ((qs.map (·.id)).filter (fun i => removeIdsList.contains i)).length = 17 := by
      rw [hperm.length_eq]; rfl
    have hsplit : (qs.map (·.id)).length =
        ((qs.map (·.id)).filter (fun i => removeIdsList.contains i)).length +
        ((qs.map (·.id)).filter (fun i => !(removeIdsList.contains i))).length :=
      List.length_eq_length_filter_add _
    have hlen2 : ((qs.map (·.id)).filter (fun i => !(removeIdsList.contains i))).length
        = (filterRemoveIds qs).length := by
      rw [List.filter_map, List.length_map]; rfl
    omega
  refine ⟨by rw [filterAndReindex, reindexFrom_length, hflen], ?_, reindexFrom_map_content 0 _⟩
  rw [filterAndReindex, reindexFrom_map_id, hflen]

/-- Witness for C9 (amended), at the concrete 113-record set. -/
theorem filterAndReindex_spec_witness :
    (filterAndReindex sampleRecords113).length = 96 ∧
    (filterAndReindex sampleRecords113).map (·.id) = List.range' 1 96 :=
  ⟨(filterAndReindex_spec sampleRecords113 (by decide) (by decide) (by decide)).1,
   (filterAndReindex_spec sampleRecords113 (by decide) (by decide) (by decide)).2.1⟩

/-! ### Dictionary and pronunciation-map lookup lemmas -/

theorem dictLookup_append (d : Dict) (ch c : Char) (rs : List Reading) :
    dictLookup (d ++ [(ch, rs)]) c =
      (dictLookup d c).or (if ch = c then some rs else none) := by
  induction d with
  | nil => simp [dictLookup]
  | cons hd tl ih => by_cases h : hd.1 = c <;> simp [dictLookup, h, ih]

theorem dictLookup_mapAppend (d : Dict) (ch c : Char) (r : Reading) :
    dictLookup (d.map (fun p => if p.1 = ch then (p.1, p.2 ++ [r]) else p)) c =
      if c = ch then (dictLookup d c).map (· ++ [r]) else dictLookup d c := by
  induction d with
  | nil => by_cases h : c = ch <;> simp [dictLookup, h]
  | cons hd tl ih =>
    by_cases hk : hd.1 = ch
    · by_cases hc : hd.1 = c
      · rw [← hc, hk]
        simp [dictLookup, hk, ← hc]
      · have hcc : ¬ ch = c := hk ▸ hc
        simp [dictLookup, hk, hc, hcc, ih]
    · by_cases hc : hd.1 = c
      · have : ¬ c = ch := fun h => hk (hc.trans h)
        simp [dictLookup, hc, hk, this]
      · simp [dictLookup, hk, hc, ih]

theorem pronGet_mapUpdate (m : PronMap) (ch c : Char) (e : Entry) :
    pronGet (m.map (fun p => if p.1 = ch then (p.1, e) else p)) c =
      if c = ch then (pronGet m c).map (fun _ => e) else pronGet m c := by
  induction m with
  | nil => by_cases h : c = ch <;> simp [pronGet, h]
  | cons hd tl ih =>
    by_cases hk : hd.1 = ch
    · by_cases hc : hd.1 = c
      · rw [← hc, hk]
        simp [pronGet, hk, ← hc]
      · have hcc : ¬ ch = c := hk ▸ hc
        simp [pronGet, hk, hc, hcc, ih]
    · by_cases hc : hd.1 = c
      · have : ¬ c = ch := fun h => hk (hc.trans h)
        simp [pronGet, hc, hk, this]
      · simp [pronGet, hk, hc, ih]

theorem pronGet_append (m : PronMap) (ch c : Char) (e : Entry) :
    pronGet (m ++ [(ch, e)]) c = (pronGet m c).or (if ch = c then some e else none) := by
  induction m with
  | nil => simp [pronGet]
  | cons hd tl ih => by_cases h : hd.1 = c <;> simp [pronGet, h, ih]

theorem pronAny_eq_isSome (m : PronMap) (ch : Char) :
    m.any (fun p => p.1 == ch) = (pronGet m ch).isSome := by
  induction m with
  | nil => simp [pronGet]
  | cons hd tl ih => by_cases h : hd.1 = ch <;> simp [pronGet, h, ih]

theorem pronGet_pronSet_same (m : PronMap) (ch : Char) (e : Entry) :
    pronGet (pronSet m ch e) ch = some e := by
  rw [pronSet]
  by_cases h : m.any (fun p => p.1 == ch)
  · rw [if_pos h, pronGet_mapUpdate, if_pos rfl]
    rw [pronAny_eq_isSome] at h
    rcases Option.isSome_iff_exists.mp h with ⟨v, hv⟩
    rw [hv]; rfl
  · rw [if_neg h, pronGet_append]
    rw [pronAny_eq_isSome] at h
    have : pronGet m ch = none := by
      cases hv : pronGet m ch
      · rfl
      · rw [hv] at h; simp at h
    rw [this]; simp

theorem pronGet_pronSet_other (m : PronMap) (ch c : Char) (e : Entry) (h : c ≠ ch) :
    pronGet (pronSet m ch e) c = pronGet m c := by
  rw [pronSet]
  by_cases ha : m.any (fun p => p.1 == ch)
  · rw [if_pos ha, pronGet_mapUpdate, if_neg h]
  · rw [if_neg ha, pronGet_append, if_neg (fun hx => h hx.symm)]
    cases hv : pronGet m c <;> simp

/-! ### Partition lemmas -/

theorem partitionChars_api_sound (d : Dict) (chars : List Char) (ch : Char)
    (h : ch ∈ (partitionChars d chars).2) :
    dictLookup d ch = none ∨ isPolyphonic d ch = true := by
  induction chars with
  | nil => simp [partitionChars] at h
  | cons a rest ih =>
    cases hda : dictLookup d a with
    | none =>
      simp only [partitionChars, hda] at h
      rcases List.mem_cons.mp h with rfl | h
      · exact Or.inl hda
      · exact ih h
    | some rs =>
      by_cases hp : isPolyphonic d a
      · simp only [partitionChars, hda, if_pos hp] at h
        rcases List.mem_cons.mp h with rfl | h
        · exact Or.inr hp
        · exact ih h
      · simp only [partitionChars, hda, if_neg hp] at h
        exact ih h

theorem partitionChars_api_complete (d : Dict) (chars : List Char) (ch : Char)
    (h : ch ∈ chars) (hcond : dictLookup d ch = none ∨ isPolyphonic d ch = true) :
    ch ∈ (partitionChars d chars).2 := by
  induction chars with
  | nil => simp at h
  | cons a rest ih =>
    rcases List.mem_cons.mp h with rfl | h
    · rcases hcond with hn | hp
      · simp only [partitionChars, hn]
        exact List.mem_cons_self _ _
      · cases hda : dictLookup d ch with
        | none =>
          simp only [partitionChars, hda]
          exact List.mem_cons_self _ _
        | some rs =>
          simp only [partitionChars, hda, if_pos hp]
          exact List.mem_cons_self _ _
    · cases hda : dictLookup d a with
      | none =>
        simp only [partitionChars, hda]
        exact List.mem_cons_of_mem _ (ih h)
      | some rs =>
        by_cases hp : isPolyphonic d a
        · simp only [partitionChars, hda, if_pos hp]
          exact List.mem_cons_of_mem _ (ih h)
        · simp only [partitionChars, hda, if_neg hp]
          exact ih h

theorem partitionChars_res_sound (d : Dict) (chars : List Char)
    (p : Char × Option Reading) (h : p ∈ (partitionChars d chars).1) :
    ∃ rs, dictLookup d p.1 = some rs ∧ isPolyphonic d p.1 = false ∧ p.2 = rs.head? := by
  induction chars with
  | nil => simp [partitionChars] at h
  | cons a rest ih =>
    cases hda : dictLookup d a with
    | none =>
      simp only [partitionChars, hda] at h
      exact ih h
    | some rs =>
      by_cases hp : isPolyphonic d a
      · simp only [partitionChars, hda, if_pos hp] at h
        exact ih h
      · simp only [partitionChars, hda, if_neg hp] at h
        rcases List.mem_cons.mp h with rfl | h
        · exact ⟨rs, hda, Bool.not_eq_true _ ▸ eq_false_of_ne_true hp, rfl⟩
        · exact ih h

theorem partitionChars_res_complete (d : Dict) (chars : List Char) (ch : Char)
    (rs : List Reading) (h : ch ∈ chars) (hl : dictLookup d ch = some rs)
    (hp : isPolyphonic d ch = false) :
    (ch, rs.head?) ∈ (partitionChars d chars).1 := by
  induction chars with
  | nil => simp at h
  | cons a rest ih =>
    rcases List.mem_cons.mp h with rfl | h
    · simp only [partitionChars, hl, hp]
      simp
    · cases hda : dictLookup d a with
      | none =>
        simp only [partitionChars, hda]
        exact ih h
      | some rsa =>
        by_cases hpa : isPolyphonic d a
        · simp only [partitionChars, hda, if_pos hpa]
          exact ih h
        · simp only [partitionChars, hda, if_neg hpa]
          exact List.mem_cons_of_mem _ (ih h)

theorem partitionChars_resKeys_sublist (d : Dict) (chars : List Char) :
    ((partitionChars d chars).1.map (·.1)).Sublist chars := by
  induction chars with
  | nil => simp [partitionChars]
  | cons a rest ih =>
    cases hda : dictLookup d a with
    | none =>
      simp only [partitionChars, hda]
      exact ih.cons a
    | some rs =>
      by_cases hp : isPolyphonic d a
      · simp only [partitionChars, hda, if_pos hp]
        exact ih.cons a
      · simp only [partitionChars, hda, if_neg hp, List.map_cons]
        exact ih.cons₂ a

theorem partitionChars_napi_nil (d : Dict) (chars : List Char)
    (hall : ∀ ch ∈ chars, ∃ r, dictLookup d ch = some [r]) :
    (partitionChars d chars).2 = [] := by
  induction chars with
  | nil => rfl
  | cons a rest ih =>
    obtain ⟨r, hr⟩ := hall a (List.mem_cons_self a rest)
    have hp : isPolyphonic d a = false := by simp [isPolyphonic, hr]
    simp only [partitionChars, hr, hp]
    simp only [Bool.false_eq_true, if_false]
    exact ih (fun ch hch => hall ch (List.mem_cons_of_mem _ hch))

/-! ### Merge-loop lemmas -/

theorem applyResolved_get_notMem (m : PronMap) (rl : List (Char × Option Reading))
    (c : Char) (hc : c ∉ rl.map (·.1)) :
    pronGet (applyResolved m rl) c = pronGet m c := by
  induction rl generalizing m with
  | nil => rfl
  | cons p rest ih =>
    have h1 : c ≠ p.1 := fun h => hc (by simp [h])
    have hc' : c ∉ rest.map (·.1) := fun h => hc (List.mem_cons_of_mem _ h)
    simp only [applyResolved, List.foldl_cons]
    rw [show List.foldl _ (pronSet m p.1 (mergeReading (pronGet m p.1) p.2)) rest =
        applyResolved (pronSet m p.1 (mergeReading (pronGet m p.1) p.2)) rest from rfl]
    rw [ih _ hc', pronGet_pronSet_other _ _ _ _ h1]

theorem applyResolved_get_mem (m : PronMap) (rl : List (Char × Option Reading))
    (c : Char) (v : Option Reading) (hnd : (rl.map (·.1)).Nodup) (hmem : (c, v) ∈ rl) :
    pronGet (applyResolved m rl) c = some (mergeReading (pronGet m c) v) := by
  induction rl generalizing m with
  | nil => simp at hmem
  | cons p rest ih =>
    obtain ⟨pc, pv⟩ := p
    simp only [applyResolved, List.foldl_cons]
    rcases List.mem_cons.mp hmem with heq | hmem'
    · cases heq
      have hck : c ∉ rest.map (·.1) := by
        simp only [List.map_cons] at hnd
        exact (List.nodup_cons.mp hnd).1
      rw [show List.foldl _ (pronSet m c (mergeReading (pronGet m c) v)) rest =
          applyResolved (pronSet m c (mergeReading (pronGet m c) v)) rest from rfl]
      rw [applyResolved_get_notMem _ _ _ hck, pronGet_pronSet_same]
    · have hcrest : c ∈ rest.map (·.1) := List.mem_map.mpr ⟨(c, v), hmem', rfl⟩
      have hpc : pc ∉ rest.map (·.1) := by
        simp only [List.map_cons] at hnd
        exact (List.nodup_cons.mp hnd).1
      have hne : c ≠ pc := fun h => hpc (h ▸ hcrest)
      have hnd' : (rest.map (·.1)).Nodup := by
        simp only [List.map_cons] at hnd
        exact (List.nodup_cons.mp hnd).2
      rw [show List.foldl _ (pronSet m pc (mergeReading (pronGet m pc) pv)) rest =
          applyResolved (pronSet m pc (mergeReading (pronGet m pc) pv)) rest from rfl]
      rw [ih _ hnd' hmem', pronGet_pronSet_other _ _ _ _ hne]

theorem applyApiResult_get_notMem (m : PronMap) (d : Dict) (napi : List Char)
    (res : List (Char × Reading)) (c : Char) (hc : c ∉ napi) :
    pronGet (applyApiResult m d napi res).1 c = pronGet m c := by
  induction napi generalizing m d with
  | nil => rfl
  | cons a rest ih =>
    have h1 : c ≠ a := fun h => hc (h ▸ List.mem_cons_self a rest)
    have hc' : c ∉ rest := fun h => hc (List.mem_cons_of_mem _ h)
    simp only [applyApiResult, List.foldl_cons]
    cases hfind : (res.find? (fun p => p.1 == a)).map (·.2) with
    | none =>
      simp only [hfind]
      exact ih _ _ hc'
    | some r =>
      simp only [hfind]
      rw [show List.foldl _ (pronSet m a (mergeReading (pronGet m a) (some r)), dictAdd d a r)
            rest = applyApiResult (pronSet m a (mergeReading (pronGet m a) (some r)))
            (dictAdd d a r) rest res from rfl]
      rw [ih _ _ hc', pronGet_pronSet_other _ _ _ _ h1]

theorem needsTtsOf_nodup (q : Question) : (needsTtsOf q).Nodup :=
  (dedupFirst_nodup _).filter _

/-- C1: for each character a record still needs, the resolver partitions by
dictionary state: a character absent from the dictionary, and a character
with two or more distinct known readings, is put on the external
disambiguation list and never into the locally-resolved set; a character
with exactly one known reading stays off the external list and its sole
reading's pinyin and ttsText are copied into the record's pronunciation
map by `processQuestion`, whatever the external call returns. -/
theorem resolver_partition_by_dict_state (api : ApiOutcome) (q : Question) (d : Dict)
    (ch : Char) (hch : ch ∈ needsTtsOf q) :
    (dictLookup d ch = none →
      ch ∈ (partitionChars d (needsTtsOf q)).2 ∧
      ch ∉ (partitionChars d (needsTtsOf q)).1.map (·.1)) ∧
    (∀ rs, dictLookup d ch = some rs → 2 ≤ rs.length →
      ch ∈ (partitionChars d (needsTtsOf q)).2 ∧
      ch ∉ (partitionChars d (needsTtsOf q)).1.map (·.1)) ∧
    (∀ r, dictLookup d ch = some [r] →
      ch ∉ (partitionChars d (needsTtsOf q)).2 ∧
      ∃ e, pronGet ((processQuestion api q d).question.pronunciation.getD []) ch = some e ∧
        e.pinyin = some r.pinyin ∧ e.ttsText = some r.ttsText) := by
  refine ⟨?_, ?_, ?_⟩
  · intro hn
    refine ⟨partitionChars_api_complete d _ ch hch (Or.inl hn), fun hres => ?_⟩
    obtain ⟨p, hp, hfst⟩ := List.mem_map.mp hres
    obtain ⟨rs, hrs, -, -⟩ := partitionChars_res_sound d _ p hp
    rw [hfst, hn] at hrs
    exact Option.noConfusion hrs
  · intro rs hrs h2
    have hp : isPolyphonic d ch = true := by
      simp only [isPolyphonic, hrs, decide_eq_true_iff]
      omega
    refine ⟨partitionChars_api_complete d _ ch hch (Or.inr hp), fun hres => ?_⟩
    obtain ⟨p, hpmem, hfst⟩ := List.mem_map.mp hres
    obtain ⟨rs', hrs', hp', -⟩ := partitionChars_res_sound d _ p hpmem
    rw [hfst, hp] at hp'
    exact Bool.noConfusion hp'
  · intro r hr
    have hpoly : isPolyphonic d ch = false := by simp [isPolyphonic, hr]
    have hnapi : ch ∉ (partitionChars d (needsTtsOf q)).2 := by
      intro hapi
      rcases partitionChars_api_sound d _ ch hapi with hn | hp
      · rw [hr] at hn; exact Option.noConfusion hn
      · rw [hpoly] at hp; exact Bool.noConfusion hp
    refine ⟨hnapi, ?_⟩
    have hAll : ch ∈ allCharsOf q := List.mem_of_mem_filter hch
    have h1 : (allCharsOf q).isEmpty = false := by
      cases hAC : allCharsOf q
      · rw [hAC] at hAll; simp at hAll
      · rfl
    have h2 : (needsTtsOf q).isEmpty = false := by
      cases hNT : needsTtsOf q
      · rw [hNT] at hch; simp at hch
      · rfl
    have hndk : ((partitionChars d (needsTtsOf q)).1.map (·.1)).Nodup :=
      (partitionChars_resKeys_sublist d _).nodup (needsTtsOf_nodup q)
    have hmem : (ch, some r) ∈ (partitionChars d (needsTtsOf q)).1 := by
      have := partitionChars_res_complete d _ ch [r] hch hr hpoly
      simpa using this
    have hm1 : pronGet (applyResolved (q.pronunciation.getD [])
        (partitionChars d (needsTtsOf q)).1) ch =
        some (mergeReading (pronGet (q.pronunciation.getD []) ch) (some r)) :=
      applyResolved_get_mem _ _ ch (some r) hndk hmem
    refine ⟨mergeReading (pronGet (q.pronunciation.getD []) ch) (some r), ?_, rfl, rfl⟩
    simp only [processQuestion, h1, h2, Bool.false_eq_true, if_false]
    by_cases hne : ((partitionChars d (needsTtsOf q)).2).isEmpty
    · simp only [hne, if_true]
      simpa using hm1
    · simp only [Bool.not_eq_true] at hne
      simp only [hne, Bool.false_eq_true, if_false]
      cases api with
      | err msg => simpa using hm1
      | ok res =>
        simp only [Option.getD_some]
        rw [applyApiResult_get_notMem _ _ _ _ _ hnapi]
        exact hm1

/-- Witness for C1 at a concrete record and dictionary. -/
theorem resolver_partition_by_dict_state_witness :
    '天' ∉ (partitionChars dWit (needsTtsOf qWitA)).2 ∧
    ∃ e, pronGet ((processQuestion (ApiOutcome.ok []) qWitA dWit).question.pronunciation.getD [])
        '天' = some e ∧
      e.pinyin = some "tian1" ∧ e.ttsText = some "天空的天" :=
  (resolver_partition_by_dict_state (ApiOutcome.ok []) qWitA dWit '天' (by decide)).2.2
    ⟨"tian1", "天空的天"⟩ (by decide)

/-- C3: when every character the record still needs has exactly one known
reading in the dictionary, `processQuestion` completes the record locally:
the external disambiguation call is never issued, the dictionary is
unchanged, and (when anything was needed at all) the record finishes with
status `fromDict`. -/
theorem resolver_local_when_dict_resolves (api : ApiOutcome) (q : Question) (d : Dict)
    (hall : ∀ ch ∈ needsTtsOf q, ∃ r, dictLookup d ch = some [r]) :
    (processQuestion api q d).apiCalled = false ∧
    (processQuestion api q d).dict = d ∧
    (needsTtsOf q ≠ [] → (processQuestion api q d).status = PStatus.fromDict) := by
  by_cases h1 : (allCharsOf q).isEmpty
  · have hAC : allCharsOf q = [] := List.isEmpty_iff.mp h1
    have hNT : needsTtsOf q = [] := by rw [needsTtsOf, hAC]; rfl
    simp [processQuestion, h1, hNT]
  · by_cases h2 : (needsTtsOf q).isEmpty
    · have hNT : needsTtsOf q = [] := List.isEmpty_iff.mp h2
      simp [processQuestion, h1, h2, hNT]
    · have hnil : (partitionChars d (needsTtsOf q)).2 = [] := partitionChars_napi_nil d _ hall
      simp [processQuestion, h1, h2, hnil]

/-- Witness for C3 at a concrete record and dictionary, with the external
service down: no call is made and the record resolves from the dictionary. -/
theorem resolver_local_when_dict_resolves_witness :
    (processQuestion (ApiOutcome.err "service down") qWitA dWit).apiCalled = false ∧
    (processQuestion (ApiOutcome.err "service down") qWitA dWit).status = PStatus.fromDict := by
  have hall : ∀ ch ∈ needsTtsOf qWitA, ∃ r, dictLookup dWit ch = some [r] := by
    intro ch hch
    have h : needsTtsOf qWitA = ['天'] := by decide
    rw [h] at hch
    simp only [List.mem_singleton] at hch
    subst hch
    exact ⟨⟨"tian1", "天空的天"⟩, by decide⟩
  exact ⟨(resolver_local_when_dict_resolves (ApiOutcome.err "service down") qWitA dWit hall).1,
         (resolver_local_when_dict_resolves (ApiOutcome.err "service down") qWitA dWit hall).2.2
           (by decide)⟩

/-- A record whose characters all carry a truthy ttsText is returned
untouched with status `skipped`, and no external call is issued. -/
theorem processQuestion_skips_resolved (api : ApiOutcome) (q : Question) (d : Dict)
    (hres : ∀ ch ∈ allCharsOf q, truthy (pronTts q ch) = true) :
    processQuestion api q d = ⟨PStatus.skipped, q, d, false⟩ := by
  have hNT : needsTtsOf q = [] := by
    rw [needsTtsOf]
    exact List.filter_eq_nil_iff.mpr (fun ch hch => by simp [hres ch hch])
  by_cases h1 : (allCharsOf q).isEmpty
  · simp [processQuestion, h1]
  · simp [processQuestion, h1, hNT]

theorem processAll_go (api : ApiOutcome) (d : Dict) (qs : List Question)
    (hres : ∀ q ∈ qs, ∀ ch ∈ allCharsOf q, truthy (pronTts q ch) = true) :
    ∀ (pre : List Question) (b : Bool),
      qs.foldl (fun acc q =>
        let r := processQuestion api q acc.2.1
        (acc.1 ++ [r.question], r.dict, acc.2.2 || r.apiCalled)) (pre, d, b) =
      (pre ++ qs, d, b) := by
  induction qs with
  | nil => intro pre b; simp
  | cons q rest ih =>
    intro pre b
    have hq := processQuestion_skips_resolved api q d (hres q (List.mem_cons_self q rest))
    simp only [List.foldl_cons, hq, Bool.or_false]
    have := ih (fun q' hq' => hres q' (List.mem_cons_of_mem _ hq')) (pre ++ [q]) b
    simpa using this

/-- C4: re-running the resolver over a record set in which every record's
needed characters already carry truthy ttsText entries issues zero external
disambiguation calls and returns every record (hence every
PronunciationMap) and the dictionary unchanged. -/
theorem resolver_rerun_idempotent (api : ApiOutcome) (d : Dict) (qs : List Question)
    (hres : ∀ q ∈ qs, ∀ ch ∈ allCharsOf q, truthy (pronTts q ch) = true) :
    processAll api d qs = (qs, d, false) := by
  have := processAll_go api d qs hres [] false
  simpa [processAll] using this

/-- Witness for C4 at a concrete fully-resolved record set, with the
external service down. -/
theorem resolver_rerun_idempotent_witness :
    processAll (ApiOutcome.err "service down") dWit [qWitB] = ([qWitB], dWit, false) :=
  resolver_rerun_idempotent (ApiOutcome.err "service down") dWit [qWitB] (by decide)

/-! ### Dictionary monotonicity lemmas -/

theorem dictAddCount_superset (d : Dict) (ch : Char) (r : Reading) (c : Char)
    (x : Reading) (hx : x ∈ dictReadings d c) :
    x ∈ dictReadings (dictAddCount d ch r).1 c := by
  rw [dictAddCount]
  cases hl : dictLookup d ch with
  | none =>
    cases hc : dictLookup d c with
    | none => rw [dictReadings, hc] at hx; simp at hx
    | some t =>
      rw [dictReadings, hc] at hx
      simp only [Option.getD_some] at hx
      rw [dictReadings, dictLookup_append, hc]
      simpa using hx
  | some rs =>
    by_cases ha : rs.any (fun y => y.pinyin == r.pinyin)
    · simpa [ha] using hx
    · simp only [if_neg ha]
      rw [dictReadings, dictLookup_mapAppend]
      by_cases hcc : c = ch
      · subst hcc
        rw [dictReadings] at hx
        cases hc : dictLookup d c with
        | none => rw [hc] at hx; simp at hx
        | some t =>
          rw [hc] at hx
          simp only [Option.getD_some] at hx
          simp only [if_pos rfl, hc, Option.map_some']
          exact List.mem_append_left _ hx
      · rw [if_neg hcc]
        exact hx

theorem dictAddCount_pinyin_distinct (d : Dict) (ch : Char) (r : Reading) (c : Char)
    (h : (dictReadings d c).Pairwise (fun a b => a.pinyin ≠ b.pinyin)) :
    (dictReadings (dictAddCount d ch r).1 c).Pairwise (fun a b => a.pinyin ≠ b.pinyin) := by
  rw [dictAddCount]
  cases hl : dictLookup d ch with
  | none =>
    rw [dictReadings, dictLookup_append]
    cases hc : dictLookup d c with
    | none =>
      by_cases hcc : ch = c
      · simp [hc, hcc]
      · simp [hc, hcc]
    | some t =>
      rw [dictReadings, hc] at h
      simpa [hc] using h
  | some rs =>
    by_cases ha : rs.any (fun y => y.pinyin == r.pinyin)
    · simpa [ha] using h
    · simp only [if_neg ha]
      rw [dictReadings, dictLookup_mapAppend]
      by_cases hcc : c = ch
      · subst hcc
        rw [hl]
        simp only [if_pos rfl, if_true, Option.map_some', Option.getD_some]
        rw [List.pairwise_append]
        refine ⟨by simpa [dictReadings, hl] using h, List.pairwise_singleton _ _, ?_⟩
        intro a ha' b hb
        simp only [List.mem_singleton] at hb
        rw [hb]
        have h2 : (rs.any fun y => y.pinyin == r.pinyin) = false := Bool.eq_false_iff.mpr ha
        have h3 := List.any_eq_false.mp h2 a ha'
        simpa using h3
      · rw [if_neg hcc]
        exact h

theorem ingestInfo_superset (acc : Dict × Nat) (ch : Char) (e : Entry) (c : Char)
    (x : Reading) (hx : x ∈ dictReadings acc.1 c) :
    x ∈ dictReadings (ingestInfo acc ch e).1 c := by
  rw [ingestInfo]
  cases hep : e.pinyin with
  | none => exact hx
  | some p =>
    cases het : e.ttsText with
    | none => exact hx
    | some t =>
      by_cases hg : (p == "" || t == "") = true
      · simpa [hg] using hx
      · simp only [Bool.not_eq_true] at hg
        simp only [hg, Bool.false_eq_true, if_false]
        exact dictAddCount_superset acc.1 ch ⟨p, t⟩ c x hx

theorem ingestInfo_pinyin_distinct (acc : Dict × Nat) (ch : Char) (e : Entry) (c : Char)
    (h : (dictReadings acc.1 c).Pairwise (fun a b => a.pinyin ≠ b.pinyin)) :
    (dictReadings (ingestInfo acc ch e).1 c).Pairwise (fun a b => a.pinyin ≠ b.pinyin) := by
  rw [ingestInfo]
  cases hep : e.pinyin with
  | none => exact h
  | some p =>
    cases het : e.ttsText with
    | none => exact h
    | some t =>
      by_cases hg : (p == "" || t == "") = true
      · simpa [hg] using h
      · simp only [Bool.not_eq_true] at hg
        simp only [hg, Bool.false_eq_true, if_false]
        exact dictAddCount_pinyin_distinct acc.1 ch ⟨p, t⟩ c h

theorem ingestQuestion_superset (acc : Dict × Nat) (q : Question) (c : Char)
    (x : Reading) (hx : x ∈ dictReadings acc.1 c) :
    x ∈ dictReadings (ingestQuestion acc q).1 c := by
  rw [ingestQuestion]
  cases q.pronunciation with
  | none => exact hx
  | some m =>
    induction m generalizing acc with
    | nil => exact hx
    | cons p rest ih =>
      simp only [List.foldl_cons]
      exact ih _ (ingestInfo_superset acc p.1 p.2 c x hx)

theorem ingestQuestion_pinyin_distinct (acc : Dict × Nat) (q : Question) (c : Char)
    (h : (dictReadings acc.1 c).Pairwise (fun a b => a.pinyin ≠ b.pinyin)) :
    (dictReadings (ingestQuestion acc q).1 c).Pairwise (fun a b => a.pinyin ≠ b.pinyin) := by
  rw [ingestQuestion]
  cases q.pronunciation with
  | none => exact h
  | some m =>
    induction m generalizing acc with
    | nil => exact h
    | cons p rest ih =>
      simp only [List.foldl_cons]
      exact ih _ (ingestInfo_pinyin_distinct acc p.1 p.2 c h)

/-- C5: dictionary ingestion is monotone: every reading known before
`buildDictFromQuestions` is still known after, and since a reading is
pushed only when no entry with the same pinyin string is present, the
per-character pinyin-distinctness of the reading list is preserved. -/
theorem dict_ingest_monotone (qs : List Question) (d0 : Dict) (c : Char) :
    (∀ x ∈ dictReadings d0 c, x ∈ dictReadings (buildDictFromQuestions qs d0).1 c) ∧
    ((dictReadings d0 c).Pairwise (fun a b => a.pinyin ≠ b.pinyin) →
      (dictReadings (buildDictFromQuestions qs d0).1 c).Pairwise
        (fun a b => a.pinyin ≠ b.pinyin)) := by
  have main : ∀ (acc : Dict × Nat),
      (∀ x ∈ dictReadings acc.1 c, x ∈ dictReadings (qs.foldl ingestQuestion acc).1 c) ∧
      ((dictReadings acc.1 c).Pairwise (fun a b => a.pinyin ≠ b.pinyin) →
        (dictReadings (qs.foldl ingestQuestion acc).1 c).Pairwise
          (fun a b => a.pinyin ≠ b.pinyin)) := by
    induction qs with
    | nil => exact fun acc => ⟨fun x hx => hx, fun h => h⟩
    | cons q rest ih =>
      intro acc
      simp only [List.foldl_cons]
      refine ⟨fun x hx => (ih _).1 x (ingestQuestion_superset acc q c x hx),
              fun h => (ih _).2 (ingestQuestion_pinyin_distinct acc q c h)⟩
  exact main (d0, 0)

/-- Witness for C5 at a concrete record set and dictionary. -/
theorem dict_ingest_monotone_witness :
    (⟨"tian1", "天空的天"⟩ : Reading) ∈
      dictReadings (buildDictFromQuestions [qWitB] dWit).1 '天' ∧
    (dictReadings (buildDictFromQuestions [qWitB] dWit).1 '天').Pairwise
      (fun a b => a.pinyin ≠ b.pinyin) :=
  ⟨(dict_ingest_monotone [qWitB] dWit '天').1 ⟨"tian1", "天空的天"⟩ (by decide),
   (dict_ingest_monotone [qWitB] dWit '天').2 (by decide)⟩

/-! ### Moderation fail-open lemmas -/

theorem jsField_mem (fs : List (String × JVal)) (k : String) (v : JVal)
    (h : jsField fs k = some v) : (k, v) ∈ fs := by
  induction fs with
  | nil => simp [jsField] at h
  | cons f rest ih =>
    rw [jsField] at h
    by_cases hk : f.1 = k
    · rw [if_pos hk] at h
      injection h with h
      have hf : f = (k, v) := by
        obtain ⟨f1, f2⟩ := f
        simp only at hk h
        rw [hk, h]
      rw [hf]
      exact List.mem_cons_self _ _
    · rw [if_neg hk] at h
      exact List.mem_cons_of_mem _ (ih h)

theorem findTopArray_eq_none (v : JVal) (h : noTopArray v) : findTopArray v = none := by
  cases v with
  | arr xs => exact absurd h id
  | prim => rfl
  | obj fields =>
    have hno : ∀ w ∈ fields.map (·.2), ∀ xs, w ≠ JVal.arr xs := by
      intro w hw xs
      obtain ⟨p, hp, hpw⟩ := List.mem_map.mp hw
      exact hpw ▸ h p hp xs
    have hres : ∀ k, ∀ xs, jsField fields k ≠ some (JVal.arr xs) := by
      intro k xs hk
      exact hno (JVal.arr xs) (List.mem_map.mpr ⟨(k, JVal.arr xs), jsField_mem _ _ _ hk, rfl⟩)
        xs rfl
    rw [findTopArray]
    have h1 : ∀ k, (match jsField fields k with
        | some (.arr xs) => some xs
        | _ => (none : Option (List Verdict))) = none := by
      intro k
      cases hjk : jsField fields k with
      | none => rfl
      | some w =>
        cases w with
        | arr xs => exact absurd hjk (hres k xs)
        | obj _ => rfl
        | prim => rfl
    have h2 : (fields.map (·.2)).findSome? (fun v =>
        match v with
        | JVal.arr xs => some xs
        | _ => none) = none := by
      rw [List.findSome?_eq_none_iff]
      intro w hw
      cases w with
      | arr xs => exact absurd rfl (hno (JVal.arr xs) hw xs)
      | obj _ => rfl
      | prim => rfl
    cases hjr : jsField fields "results" with
    | none =>
      cases hjq : jsField fields "questions" with
      | none => exact h2
      | some w =>
        cases w with
        | arr xs => exact absurd hjq (hres "questions" xs)
        | obj _ => exact h2
        | prim => exact h2
    | some w =>
      cases w with
      | arr xs => exact absurd hjr (hres "results" xs)
      | obj g =>
        cases hjq : jsField fields "questions" with
        | none => exact h2
        | some w' =>
          cases w' with
          | arr xs => exact absurd hjq (hres "questions" xs)
          | obj _ => exact h2
          | prim => exact h2
      | prim =>
        cases hjq : jsField fields "questions" with
        | none => exact h2
        | some w' =>
          cases w' with
          | arr xs => exact absurd hjq (hres "questions" xs)
          | obj _ => exact h2
          | prim => exact h2

/-- C10: the moderation batch filter fails open: when the review call throws
or its response contains no array under any top-level key, `processBatch`
returns a `keep: true` verdict for every question of the batch, so the main
loop's keep decision retains every question of the batch. -/
theorem moderation_fails_open (batch : List Question) (o : ModOutcome)
    (h : o = ModOutcome.err ∨ ∃ v, o = ModOutcome.json v ∧ noTopArray v) :
    (processBatch batch o).map (fun r => (r.vid, r.keep)) =
      batch.map (fun q => (q.id, true)) ∧
    ∀ q ∈ batch, keptByModeration (processBatch batch o) q = true := by
  have hverd : ∃ msg, processBatch batch o = batch.map (fun q => ⟨q.id, true, msg⟩) := by
    rcases h with rfl | ⟨v, rfl, hv⟩
    · exact ⟨"api error", rfl⟩
    · refine ⟨"parse error", ?_⟩
      rw [processBatch, findTopArray_eq_none v hv]
  obtain ⟨msg, hmsg⟩ := hverd
  rw [hmsg]
  constructor
  · rw [List.map_map]
    rfl
  · intro q hq
    rw [keptByModeration]
    cases hv : verdictFor (batch.map (fun q => ⟨q.id, true, msg⟩)) q.id with
    | none => rfl
    | some r =>
      have hmem : r ∈ (batch.map (fun q => (⟨q.id, true, msg⟩ : Verdict))).reverse :=
        List.mem_of_find?_eq_some hv
      rw [List.mem_reverse] at hmem
      obtain ⟨q', _, hq'⟩ := List.mem_map.mp hmem
      rw [← hq']

/-- Witness for C10: a response object with no array under any key keeps
the whole batch. -/
theorem moderation_fails_open_witness :
    (processBatch [qWitA] (ModOutcome.json (JVal.obj [("note", JVal.prim)]))).map
        (fun r => (r.vid, r.keep)) = [(1, true)] ∧
    ∀ q ∈ [qWitA], keptByModeration
        (processBatch [qWitA] (ModOutcome.json (JVal.obj [("note", JVal.prim)]))) q = true := by
  have h := moderation_fails_open [qWitA] (ModOutcome.json (JVal.obj [("note", JVal.prim)]))
    (Or.inr ⟨JVal.obj [("note", JVal.prim)], rfl, by
      intro p hp xs
      simp only [List.mem_singleton] at hp
      subst hp
      intro hcontra
      exact JVal.noConfusion hcontra⟩)
  exact ⟨by rw [h.1]; rfl, h.2⟩

/-! ### Synthesizer retry-loop lemmas -/

theorem synthesizeGo_resolves (f : Nat → AttemptOutcome) :
    ∀ (fuel a : Nat) (ds : List Nat) (k : Nat),
      a + fuel = maxRetries + 1 → a ≤ k → k ≤ maxRetries →
      (∀ i, a ≤ i → i < k → rateLimited (f i) = true) → rateLimited (f k) = false →
      synthesizeGo f fuel a ds =
        (ds ++ (List.range' a (k - a)).map backoffMs, resolveAttempt (f k)) := by
  intro fuel
  induction fuel with
  | zero =>
    intro a ds k hfuel hak hkm _ _
    rw [maxRetries] at hfuel hkm
    omega
  | succ n ih =>
    intro a ds k hfuel hak hkm hlim hstop
    rw [synthesizeGo]
    by_cases hakk : a = k
    · subst hakk
      rw [hstop]
      simp
    · have haltk : a < k := lt_of_le_of_ne hak hakk
      have hl : rateLimited (f a) = true := hlim a le_rfl haltk
      have ham : a < maxRetries := lt_of_lt_of_le haltk hkm
      rw [hl]
      simp only [decide_eq_true ham, Bool.and_self]
      rw [if_pos trivial]
      rw [ih (a + 1) (ds ++ [backoffMs a]) k (by omega) haltk hkm
          (fun i h1 h2 => hlim i (by omega) h2) hstop]
      have hk : k - a = (k - (a + 1)) + 1 := by omega
      rw [hk, List.range']
      simp [List.append_assoc]

theorem synthesizeGo_allLimited (f : Nat → AttemptOutcome) :
    ∀ (fuel a : Nat) (ds : List Nat),
      a + fuel = maxRetries + 1 → a ≤ maxRetries →
      (∀ i, a ≤ i → i ≤ maxRetries → rateLimited (f i) = true) →
      synthesizeGo f fuel a ds =
        (ds ++ (List.range' a (maxRetries - a)).map backoffMs,
         resolveAttempt (f maxRetries)) := by
  intro fuel
  induction fuel with
  | zero =>
    intro a ds hfuel ham _
    rw [maxRetries] at hfuel ham
    omega
  | succ n ih =>
    intro a ds hfuel ham hlim
    rw [synthesizeGo]
    by_cases hamax : a = maxRetries
    · subst hamax
      rw [hlim maxRetries le_rfl le_rfl]
      simp
    · have haltm : a < maxRetries := lt_of_le_of_ne ham hamax
      rw [hlim a le_rfl ham]
      simp only [decide_eq_true haltm, Bool.and_self]
      rw [if_pos trivial]
      rw [ih (a + 1) (ds ++ [backoffMs a]) (by omega) haltm
          (fun i h1 h2 => hlim i (by omega) h2)]
      have hk : maxRetries - a = (maxRetries - (a + 1)) + 1 := by omega
      rw [hk, List.range']
      simp [List.append_assoc]

theorem resolveAttempt_err_of_rateLimited (o : AttemptOutcome)
    (h : rateLimited o = true) : ∃ m, resolveAttempt o = SynthResult.err m := by
  cases o with
  | httpErr s b => exact ⟨_, rfl⟩
  | apiErr c m => exact ⟨_, rfl⟩
  | badAudioShape t => simp [rateLimited] at h
  | downloadErr s => simp [rateLimited] at h
  | ok a => simp [rateLimited] at h

/-! ### Worker-pool lemmas -/

theorem perm_rotate {β : Type _} (A B C : List β) :
    List.Perm ((A ++ B) ++ C) ((C ++ B) ++ A) := by
  rw [List.append_assoc A B C]
  exact (List.perm_append_comm).trans (List.perm_append_comm.append_right A)

theorem filterMap_set_perm {β : Type _} (g : WStatus → Option β) (ws : List WStatus)
    (w : Nat) (v old : WStatus) (hget : ws.get? w = some old) :
    List.Perm ((ws.set w v).filterMap g ++ (g old).toList)
      (ws.filterMap g ++ (g v).toList) := by
  induction ws generalizing w with
  | nil => simp at hget
  | cons h t ih =>
    cases w with
    | zero =>
      simp only [List.get?] at hget
      injection hget with hget
      rw [List.set]
      rw [List.filterMap_cons, List.filterMap_cons]
      rw [← hget]
      cases hgv : g v with
      | none =>
        cases hgo : g h with
        | none => simp
        | some bo => simp
      | some bv =>
        cases hgo : g h with
        | none => simpa using (List.perm_append_singleton bv (t.filterMap g)).symm
        | some bo => simpa using perm_rotate [bv] (t.filterMap g) [bo]
    | succ n =>
      simp only [List.get?] at hget
      rw [List.set]
      rw [List.filterMap_cons, List.filterMap_cons]
      cases hgh : g h with
      | none => exact ih n hget
      | some bh =>
        simp only [List.cons_append]
        exact (ih n hget).cons bh

theorem filterMap_inFlight_replicate (k : Nat) :
    (List.replicate k WStatus.idle).filterMap inFlight = [] := by
  induction k with
  | zero => rfl
  | succ n ih => simp [List.replicate, List.filterMap_cons, inFlight, ih]

theorem poolInv_init {α : Type} (tasks : List α) (conc : Nat) :
    PoolInv tasks (initPool tasks conc) := by
  constructor
  · exact Nat.zero_le _
  · exact List.length_replicate _ _
  · intro i hi
    simp only [initPool]
    rw [List.get?_eq_getElem?, List.getElem?_replicate, if_pos hi]
    simp
  · simp only [initPool]
    rw [filterMap_inFlight_replicate]
    rfl
  · rfl
  · simp [initPool]
  · simp [initPool]
  · simp only [initPool]
    intro hmem
    exact absurd (List.eq_of_mem_replicate hmem) (by simp)

theorem poolInv_step {α : Type} (tasks : List α) (s : PoolState α) (w : Nat)
    (hinv : PoolInv tasks s) : PoolInv tasks (poolStep tasks s w) := by
  cases hget : s.workers.get? w with
  | none => simpa only [poolStep, hget] using hinv
  | some st =>
    cases st with
    | done => simpa only [poolStep, hget] using hinv
    | idle =>
      by_cases hlt : s.nextIndex < tasks.length
      · simp only [poolStep, hget, if_pos hlt]
        have hperm := filterMap_set_perm inFlight s.workers w
          (WStatus.awaiting s.nextIndex) WStatus.idle hget
        constructor
        · exact hlt
        · exact hinv.hreslen
        · exact hinv.hres
        · show (↑((s.workers.set w (WStatus.awaiting s.nextIndex)).filterMap inFlight)
              + ↑s.log : Multiset Nat) = ↑(List.range (s.nextIndex + 1))
          have h1 : (↑((s.workers.set w (WStatus.awaiting s.nextIndex)).filterMap inFlight)
              : Multiset Nat) = ↑(s.workers.filterMap inFlight) + ↑([s.nextIndex] : List Nat) := by
            rw [Multiset.coe_add]
            refine Multiset.coe_eq_coe.mpr ?_
            simpa [inFlight] using hperm
          rw [h1, add_right_comm, hinv.hclaims, Multiset.coe_add, ← List.range_succ]
        · exact hinv.hcompleted
        · exact hinv.hlast
        · exact hinv.hcheck
        · intro hmem
          rcases List.mem_or_eq_of_mem_set hmem with hm | he
          · exact absurd (hinv.hdone hm) (by omega)
          · exact WStatus.noConfusion he
      · simp only [poolStep, hget, if_neg hlt]
        have hperm := filterMap_set_perm inFlight s.workers w WStatus.done WStatus.idle hget
        constructor
        · exact hinv.hnext
        · exact hinv.hreslen
        · exact hinv.hres
        · show (↑((s.workers.set w WStatus.done).filterMap inFlight)
              + ↑s.log : Multiset Nat) = ↑(List.range s.nextIndex)
          have h1 : (↑((s.workers.set w WStatus.done).filterMap inFlight)
              : Multiset Nat) = ↑(s.workers.filterMap inFlight) :=
            Multiset.coe_eq_coe.mpr (by simpa [inFlight] using hperm)
          rw [h1, hinv.hclaims]
        · exact hinv.hcompleted
        · exact hinv.hlast
        · exact hinv.hcheck
        · intro _
          show s.nextIndex = tasks.length
          have := hinv.hnext
          omega
    | awaiting i =>
      have hiflight : i ∈ s.workers.filterMap inFlight :=
        List.mem_filterMap.mpr ⟨_, List.get?_mem hget, rfl⟩
      have himem : i ∈ List.range s.nextIndex := by
        have h1 : (i : Nat) ∈ (↑(s.workers.filterMap inFlight) + ↑s.log : Multiset Nat) :=
          Multiset.mem_add.mpr (Or.inl (by exact_mod_cast hiflight))
        rw [hinv.hclaims] at h1
        exact_mod_cast h1
      have hilt : i < tasks.length := lt_of_lt_of_le (List.mem_range.mp himem) hinv.hnext
      have hperm := filterMap_set_perm inFlight s.workers w WStatus.idle (WStatus.awaiting i) hget
      simp only [poolStep, hget]
      constructor
      · exact hinv.hnext
      · show (s.results.set i (tasks.get? i)).length = tasks.length
        rw [List.length_set]
        exact hinv.hreslen
      · intro j hj
        show (s.results.set i (tasks.get? i)).get? j =
          some (if j ∈ s.log ++ [i] then tasks.get? j else none)
        by_cases hji : j = i
        · subst hji
          rw [List.get?_eq_getElem?, List.getElem?_set_self']
          have hr := hinv.hres j hj
          rw [List.get?_eq_getElem?] at hr
          rw [hr]
          simp
        · rw [List.get?_eq_getElem?, List.getElem?_set_ne (fun h => hji h.symm),
            ← List.get?_eq_getElem?, hinv.hres j hj]
          congr 1
          apply if_congr _ rfl rfl
          simp [List.mem_append, hji]
      · show (↑((s.workers.set w WStatus.idle).filterMap inFlight)
            + ↑(s.log ++ [i]) : Multiset Nat) = ↑(List.range s.nextIndex)
        have h1 : (↑((s.workers.set w WStatus.idle).filterMap inFlight)
            + ↑([i] : List Nat) : Multiset Nat) = ↑(s.workers.filterMap inFlight) := by
          rw [Multiset.coe_add]
          refine Multiset.coe_eq_coe.mpr ?_
          simpa [inFlight] using hperm
        have h2 : (↑(s.log ++ [i]) : Multiset Nat) = ↑s.log + ↑([i] : List Nat) :=
          (Multiset.coe_add _ _).symm
        have hac : ∀ (a b c : Multiset Nat), a + (b + c) = (a + c) + b := by
          intro a b c
          rw [add_comm b c, ← add_assoc]
        rw [h2, hac, h1, hinv.hclaims]
      · show s.completed + 1 = (s.log ++ [i]).length
        rw [hinv.hcompleted]
        simp
      · show (if saveInterval ≤ s.completed + 1 - s.lastSave then s.completed + 1
            else s.lastSave) = saveInterval * ((s.completed + 1) / saveInterval)
        have hl := hinv.hlast
        simp only [saveInterval] at hl ⊢
        by_cases hfire : 20 ≤ s.completed + 1 - s.lastSave
        · rw [if_pos hfire]
          omega
        · rw [if_neg hfire]
          omega
      · show (if saveInterval ≤ s.completed + 1 - s.lastSave then
            s.checkpoints ++ [s.completed + 1] else s.checkpoints) =
            (List.range ((s.completed + 1) / saveInterval)).map
              (fun k => saveInterval * (k + 1))
        have hl := hinv.hlast
        have hc := hinv.hcheck
        simp only [saveInterval] at hl hc ⊢
        by_cases hfire : 20 ≤ s.completed + 1 - s.lastSave
        · rw [if_pos hfire]
          have hq : (s.completed + 1) / 20 = s.completed / 20 + 1 := by omega
          rw [hq, List.range_succ, List.map_append, ← hc]
          have hval : s.completed + 1 = 20 * (s.completed / 20 + 1) := by omega
          rw [hval]
          rfl
        · rw [if_neg hfire]
          have hq : (s.completed + 1) / 20 = s.completed / 20 := by omega
          rw [hq, ← hc]
      · intro hmem
        rcases List.mem_or_eq_of_mem_set hmem with hm | he
        · exact hinv.hdone hm
        · exact WStatus.noConfusion he

theorem poolInv_run {α : Type} (tasks : List α) (conc : Nat) (sched : List Nat) :
    PoolInv tasks (runSched tasks conc sched) := by
  rw [runSched]
  have main : ∀ (s : PoolState α), PoolInv tasks s →
      PoolInv tasks (sched.foldl (poolStep tasks) s) := by
    induction sched with
    | nil => exact fun s h => h
    | cons w rest ih =>
      intro s h
      exact ih _ (poolInv_step tasks s w h)
  exact main _ (poolInv_init tasks conc)

theorem poolStep_workers_length {α : Type} (tasks : List α) (s : PoolState α) (w : Nat) :
    (poolStep tasks s w).workers.length = s.workers.length := by
  cases hget : s.workers.get? w with
  | none => simp only [poolStep, hget]
  | some st =>
    cases st with
    | done => simp only [poolStep, hget]
    | idle =>
      by_cases hlt : s.nextIndex < tasks.length
      · simp only [poolStep, hget, if_pos hlt]
        exact List.length_set _ _ _
      · simp only [poolStep, hget, if_neg hlt]
        exact List.length_set _ _ _
    | awaiting i =>
      simp only [poolStep, hget]
      exact List.length_set _ _ _

theorem runSched_workers_length {α : Type} (tasks : List α) (conc : Nat) (sched : List Nat) :
    (runSched tasks conc sched).workers.length = min conc tasks.length := by
  rw [runSched]
  have main : ∀ (s : PoolState α), (sched.foldl (poolStep tasks) s).workers.length =
      s.workers.length := by
    induction sched with
    | nil => exact fun s => rfl
    | cons w rest ih =>
      intro s
      rw [List.foldl_cons, ih, poolStep_workers_length]
  rw [main]
  exact List.length_replicate _ _

theorem poolTerminal_results {α : Type} (tasks : List α) (conc : Nat) (sched : List Nat)
    (hconc : 1 ≤ conc) (hterm : poolTerminal (runSched tasks conc sched) = true) :
    (runSched tasks conc sched).results = tasks.map some ∧
    (∀ i, i < tasks.length → (runSched tasks conc sched).log.count i = 1) ∧
    (runSched tasks conc sched).completed = tasks.length ∧
    (runSched tasks conc sched).checkpoints =
      (List.range (tasks.length / saveInterval)).map (fun k => saveInterval * (k + 1)) := by
  have hinv := poolInv_run tasks conc sched
  set s := runSched tasks conc sched with hs
  have hall : ∀ x ∈ s.workers, x = WStatus.done := by
    intro x hx
    have := List.all_eq_true.mp hterm x hx
    simpa using this
  have hfm : s.workers.filterMap inFlight = [] := by
    rw [List.filterMap_eq_nil_iff]
    intro x hx
    rw [hall x hx]
    rfl
  have hlogperm : List.Perm s.log (List.range s.nextIndex) := by
    have hcl := hinv.hclaims
    rw [hfm] at hcl
    simpa [Multiset.coe_eq_coe] using hcl
  have hnext : s.nextIndex = tasks.length := by
    cases htask : tasks with
    | nil =>
      have h0 := hinv.hnext
      rw [htask] at h0
      simp only [List.length_nil] at h0 ⊢
      omega
    | cons t ts =>
      have hwlen : s.workers.length = min conc tasks.length :=
        runSched_workers_length tasks conc sched
      have hpos : 0 < s.workers.length := by
        rw [hwlen, htask]
        simp only [List.length_cons]
        omega
      obtain ⟨x, hx⟩ := List.exists_mem_of_length_pos hpos
      exact htask ▸ hinv.hdone ((hall x hx) ▸ hx)
  refine ⟨?_, ?_, ?_, ?_⟩
  · apply List.ext_get?
    intro n
    by_cases hn : n < tasks.length
    · rw [hinv.hres n hn]
      have hmemn : n ∈ s.log := hlogperm.mem_iff.mpr (by
        rw [hnext]
        exact List.mem_range.mpr hn)
      rw [if_pos hmemn]
      cases htn : tasks.get? n with
      | none =>
        rw [List.get?_eq_none] at htn
        omega
      | some t =>
        rw [List.get?_map, htn]
        rfl
    · have h1 : s.results.get? n = none := List.get?_eq_none.mpr (by
        rw [hinv.hreslen]
        omega)
      have h2 : (tasks.map some).get? n = none := List.get?_eq_none.mpr (by
        rw [List.length_map]
        omega)
      rw [h1, h2]
  · intro i hi
    have hnodup : s.log.Nodup := hlogperm.nodup_iff.mpr (List.nodup_range _)
    have hmem : i ∈ s.log := hlogperm.mem_iff.mpr (by
      rw [hnext]
      exact List.mem_range.mpr hi)
    exact List.count_eq_one_of_mem hnodup hmem
  · rw [hinv.hcompleted, hlogperm.length_eq, hnext, List.length_range]
  · rw [hinv.hcheck, hinv.hcompleted, hlogperm.length_eq, hnext, List.length_range]

/-- C7 (amended: a positive concurrency bound): for every task list,
concurrency bound ≥ 1, and cooperative schedule that drains the pool,
`runPool` executes each task exactly once, stores each task's result at the
task's original index regardless of completion order, and invokes the
checkpoint callback with the running completion count after every 20
completions counted across all workers. -/
theorem runPool_spec {α : Type} (tasks : List α) (conc : Nat) (sched : List Nat)
    (hconc : 1 ≤ conc) (hterm : poolTerminal (runSched tasks conc sched) = true) :
    (runSched tasks conc sched).results = tasks.map some ∧
    (∀ i, i < tasks.length → (runSched tasks conc sched).log.count i = 1) ∧
    (runSched tasks conc sched).completed = tasks.length ∧
    (runSched tasks conc sched).checkpoints =
      (List.range (tasks.length / saveInterval)).map (fun k => saveInterval * (k + 1)) :=
  poolTerminal_results tasks conc sched hconc hterm

/-- C7 counterexample: with concurrency bound 0 — allowed by the claim's
"for every concurrency bound" — `Math.min(0, 1)` spawns no workers,
`Promise.all([])` resolves immediately, and the single task is never
executed: its result slot stays unset. -/
theorem runPool_zero_concurrency :
    poolTerminal (runSched [true] 0 []) = true ∧
    (runSched [true] 0 []).log.count 0 = 0 ∧
    (runSched [true] 0 []).results ≠ [true].map some := by
  refine ⟨by decide, by decide, by decide⟩

/-- Witness for C7 (amended) at a concrete two-task run with one worker. -/
theorem runPool_spec_witness :
    (runSched [10, 20] 1 [0, 0, 0, 0, 0]).results = [10, 20].map some ∧
    (runSched [10, 20] 1 [0, 0, 0, 0, 0]).log.count 0 = 1 := by
  have h := runPool_spec [10, 20] 1 [0, 0, 0, 0, 0] (by decide) (by decide)
  exact ⟨h.1, h.2.1 0 (by decide)⟩

/-- C6: the synthesizer retries only on a rate-limit signal (HTTP 429, or
an API body code containing "Throttling"), at most 5 times, with a backoff
delay that doubles on each successive retry; any other failure resolves
immediately with no retry and no slept delay; after 5 rate-limited retries
a sixth rate-limited attempt raises an error; and a failed job yields an
error task result while a terminal pool run still completes every task of
the batch. -/
theorem synthesize_retry_policy :
    (∀ (f : Nat → AttemptOutcome) (k : Nat), k ≤ maxRetries →
      (∀ i, i < k → rateLimited (f i) = true) → rateLimited (f k) = false →
      synthesizeModel f = ((List.range k).map backoffMs, resolveAttempt (f k))) ∧
    (∀ f, (∀ i, i ≤ maxRetries → rateLimited (f i) = true) →
      synthesizeModel f = ((List.range maxRetries).map backoffMs,
        resolveAttempt (f maxRetries)) ∧
      ∃ m, resolveAttempt (f maxRetries) = SynthResult.err m) ∧
    (∀ i, backoffMs (i + 1) = 2 * backoffMs i) ∧
    (∀ f m, rateLimited (f 0) = false → resolveAttempt (f 0) = SynthResult.err m →
      synthesizeModel f = ([], SynthResult.err m)) ∧
    (∀ (jobs : List (Nat → AttemptOutcome)) (conc : Nat) (sched : List Nat),
      1 ≤ conc → poolTerminal (runSched (jobs.map audioTask) conc sched) = true →
      (runSched (jobs.map audioTask) conc sched).results =
        (jobs.map audioTask).map some) := by
  refine ⟨?_, ?_, ?_, ?_, ?_⟩
  · intro f k hk hlim hstop
    rw [synthesizeModel]
    rw [synthesizeGo_resolves f (maxRetries + 1) 0 [] k (by omega) (Nat.zero_le k) hk
        (fun i _ h2 => hlim i h2) hstop]
    simp [List.range_eq_range']
  · intro f hlim
    constructor
    · rw [synthesizeModel, synthesizeGo_allLimited f (maxRetries + 1) 0 [] (by omega)
          (Nat.zero_le _) (fun i _ h2 => hlim i h2)]
      simp [List.range_eq_range']
    · exact resolveAttempt_err_of_rateLimited _ (hlim maxRetries le_rfl)
  · intro i
    rw [backoffMs, backoffMs, pow_succ]
    ring
  · intro f m hrl herr
    rw [synthesizeModel, synthesizeGo, hrl]
    simp [herr]
  · intro jobs conc sched hconc hterm
    exact (poolTerminal_results (jobs.map audioTask) conc sched hconc hterm).1

/-- Witness for C6: a permanent HTTP 500 failure on the first attempt is
raised immediately, with no retry and no backoff sleep. -/
theorem synthesize_retry_policy_witness :
    synthesizeModel (fun _ => AttemptOutcome.httpErr 500 "boom") =
      ([], SynthResult.err "HTTP 500: boom") :=
  synthesize_retry_policy.2.2.2.1 (fun _ => AttemptOutcome.httpErr 500 "boom")
    "HTTP 500: boom" (by decide) (by decide)

/-! ### Audio-run lemmas -/

theorem pronGet_mapModify (m : PronMap) (ch c : Char) (g : Entry → Entry) :
    pronGet (m.map (fun pe => if pe.1 = ch then (pe.1, g pe.2) else pe)) c =
      if c = ch then (pronGet m c).map g else pronGet m c := by
  induction m with
  | nil => by_cases h : c = ch <;> simp [pronGet, h]
  | cons hd tl ih =>
    by_cases hk : hd.1 = ch
    · by_cases hc : hd.1 = c
      · rw [← hc, hk]
        simp [pronGet, hk, ← hc]
      · have hcc : ¬ ch = c := hk ▸ hc
        simp [pronGet, hk, hc, hcc, ih]
    · by_cases hc : hd.1 = c
      · have : ¬ c = ch := fun h => hk (hc.trans h)
        simp [pronGet, hc, hk, this]
      · simp [pronGet, hk, hc, ih]

theorem pronGet_mem (m : PronMap) (ch : Char) (e : Entry) (h : pronGet m ch = some e) :
    (ch, e) ∈ m := by
  induction m with
  | nil => simp [pronGet] at h
  | cons hd tl ih =>
    rw [pronGet] at h
    by_cases hk : hd.1 = ch
    · rw [if_pos hk] at h
      injection h with h
      have hhd : hd = (ch, e) := by
        obtain ⟨h1, h2⟩ := hd
        simp only at hk h
        rw [hk, h]
      rw [hhd]
      exact List.mem_cons_self _ _
    · rw [if_neg hk] at h
      exact List.mem_cons_of_mem _ (ih h)

theorem getElem?_set_self {β : Type _} (l : List β) (i : Nat) (a b : β)
    (h : l[i]? = some b) : (l.set i a)[i]? = some a := by
  induction l generalizing i with
  | nil => simp at h
  | cons x t ih =>
    cases i with
    | zero => simp
    | succ n =>
      simp only [List.getElem?_cons_succ] at h
      show (x :: t.set n a)[n + 1]? = some a
      simp only [List.getElem?_cons_succ]
      exact ih n h

theorem entryAt_eq (qs : List Question) (r : ARef) :
    entryAt qs r =
      qs[r.1]?.bind (fun q => q.pronunciation.bind (fun m => pronGet m r.2)) := by
  cases hget : qs[r.1]? with
  | none =>
    rw [entryAt, hget]
    rfl
  | some q =>
    cases hpron : q.pronunciation with
    | none =>
      rw [entryAt, hget]
      simp [hpron]
    | some m =>
      rw [entryAt, hget]
      simp [hpron]

theorem entryAt_setAudioRef (fname : String) (qs : List Question) (r r' : ARef) :
    entryAt (setAudioRef fname qs r) r' =
      if r' = r then (entryAt qs r).map (fun e => { e with audioFile := some fname })
      else entryAt qs r' := by
  rw [setAudioRef]
  cases hget : qs[r.1]? with
  | none =>
    by_cases hr : r' = r <;> simp [hr, entryAt_eq, hget]
  | some q =>
    by_cases hq1 : r'.1 = r.1
    · cases hpron : q.pronunciation with
      | none =>
        have hset := getElem?_set_self qs r.1
          ({ q with pronunciation := q.pronunciation.map (fun m => m.map (fun pe =>
              if pe.1 = r.2 then (pe.1, { pe.2 with audioFile := some fname }) else pe)) })
          q hget
        rw [hpron] at hset
        simp only [Option.map_none'] at hset
        by_cases hr : r' = r <;>
          simp [hr, entryAt_eq, hq1, hset, hget, hpron]
      | some m =>
        have hset := getElem?_set_self qs r.1
          ({ q with pronunciation := q.pronunciation.map (fun m => m.map (fun pe =>
              if pe.1 = r.2 then (pe.1, { pe.2 with audioFile := some fname }) else pe)) })
          q hget
        rw [hpron] at hset
        simp only [Option.map_some'] at hset
        by_cases hr2 : r'.2 = r.2
        · have hr : r' = r := Prod.ext hq1 hr2
          simp [hr, entryAt_eq, hq1, hset, hget, hpron]
          exact (pronGet_mapModify m r.2 r.2
            (fun e => { e with audioFile := some fname })).trans (by rw [if_pos rfl])
        · have hr : ¬ r' = r := fun h => hr2 (congrArg Prod.snd h)
          simp [hr, entryAt_eq, hq1, hset, hget, hpron]
          exact (pronGet_mapModify m r.2 r'.2
            (fun e => { e with audioFile := some fname })).trans (by rw [if_neg hr2])
    · have hr : ¬ r' = r := fun h => hq1 (congrArg Prod.fst h)
      rw [if_neg hr]
      simp only [entryAt_eq]
      rw [List.getElem?_set_ne (fun h => hq1 h.symm)]

theorem entryAt_setAudioRef_isSome (fname : String) (qs : List Question) (r r' : ARef) :
    (entryAt (setAudioRef fname qs r) r').isSome = (entryAt qs r').isSome := by
  rw [entryAt_setAudioRef]
  by_cases hr : r' = r
  · rw [if_pos hr, hr]
    cases entryAt qs r <;> rfl
  · rw [if_neg hr]

theorem audioAt_setAudioRef_same (fname : String) (qs : List Question) (r : ARef)
    (h : (entryAt qs r).isSome = true) :
    audioAt (setAudioRef fname qs r) r = some fname := by
  rw [audioAt, entryAt_setAudioRef, if_pos rfl]
  obtain ⟨e, he⟩ := Option.isSome_iff_exists.mp h
  rw [he]
  rfl

theorem audioAt_setAudioRef_other (fname : String) (qs : List Question) (r r' : ARef)
    (h : r' ≠ r) : audioAt (setAudioRef fname qs r) r' = audioAt qs r' := by
  rw [audioAt, entryAt_setAudioRef, if_neg h, audioAt]

theorem refEntryOf_eq_some (qi : Nat) (pe : Char × Entry) (p : ARef × String)
    (h : refEntryOf qi pe = some p) :
    ∃ t, pe.2.ttsText = some t ∧ ¬ t = "" ∧ p = ((qi, pe.1), t) := by
  rw [refEntryOf] at h
  cases htt : pe.2.ttsText with
  | none => rw [htt] at h; exact absurd h (by simp)
  | some t =>
    rw [htt] at h
    dsimp only at h
    by_cases hne : t = ""
    · rw [if_pos hne] at h; exact absurd h (by simp)
    · rw [if_neg hne] at h
      injection h with h
      exact ⟨t, rfl, hne, h.symm⟩

theorem refEntryOf_some (qi : Nat) (pe : Char × Entry) (t : String)
    (htt : pe.2.ttsText = some t) (hne : ¬ t = "") :
    refEntryOf qi pe = some ((qi, pe.1), t) := by
  rw [refEntryOf, htt]
  dsimp only
  rw [if_neg hne]

theorem entryAt_eq_some (qs : List Question) (r : ARef) (e : Entry)
    (h : entryAt qs r = some e) :
    ∃ q m, qs[r.1]? = some q ∧ q.pronunciation = some m ∧ pronGet m r.2 = some e := by
  rw [entryAt] at h
  cases hq : qs[r.1]? with
  | none => rw [hq] at h; exact absurd h (by simp)
  | some q =>
    rw [hq] at h
    dsimp only at h
    cases hpron : q.pronunciation with
    | none => rw [hpron] at h; exact absurd h (by simp)
    | some m => rw [hpron] at h; exact ⟨q, m, rfl, hpron, h⟩

theorem ttsAt_eq_some (qs : List Question) (r : ARef) (t : String)
    (h : ttsAt qs r = some t) :
    ∃ e, entryAt qs r = some e ∧ e.ttsText = some t := by
  rw [ttsAt] at h
  cases he : entryAt qs r with
  | none => rw [he] at h; exact absurd h (by simp)
  | some e => rw [he] at h; exact ⟨e, rfl, h⟩

theorem entryAt_isSome_of_ttsAt (qs : List Question) (r : ARef) (t : String)
    (h : ttsAt qs r = some t) : (entryAt qs r).isSome := by
  obtain ⟨e, he, _⟩ := ttsAt_eq_some qs r t h
  rw [he]; rfl

theorem mem_collectRefsFrom (qs : List Question) :
    ∀ (qi i : Nat) (q : Question) (m : PronMap) (ch : Char) (e : Entry) (t : String),
      qs[i]? = some q → q.pronunciation = some m → pronGet m ch = some e →
      e.ttsText = some t → ¬ t = "" → ((qi + i, ch), t) ∈ collectRefsFrom qi qs := by
  induction qs with
  | nil => intro qi i q m ch e t hget; simp at hget
  | cons hd tl ih =>
    intro qi i q m ch e t hget hpron hpg htt hne
    cases i with
    | zero =>
      simp only [List.getElem?_cons_zero, Option.some.injEq] at hget
      subst hget
      rw [collectRefsFrom]
      apply List.mem_append_left
      rw [hpron]
      apply List.mem_filterMap.mpr
      refine ⟨(ch, e), pronGet_mem m ch e hpg, ?_⟩
      have := refEntryOf_some qi (ch, e) t htt hne
      simpa using this
    | succ n =>
      have hrec := ih (qi + 1) n q m ch e t (by simpa using hget) hpron hpg htt hne
      rw [collectRefsFrom]
      apply List.mem_append_right
      have harith : qi + (n + 1) = (qi + 1) + n := by omega
      rw [harith]
      exact hrec

theorem mem_collectRefs (qs : List Question) (r : ARef) (t : String)
    (h : ttsAt qs r = some t) (hne : ¬ t = "") : (r, t) ∈ collectRefs qs := by
  obtain ⟨e, he, htt⟩ := ttsAt_eq_some qs r t h
  obtain ⟨q, m, hq, hpron, hpg⟩ := entryAt_eq_some qs r e he
  have := mem_collectRefsFrom qs 0 r.1 q m r.2 e t hq hpron hpg htt hne
  simpa [collectRefs] using this

theorem collectRefsFrom_fst_le (qs : List Question) :
    ∀ (qi : Nat) (p : ARef × String), p ∈ collectRefsFrom qi qs → qi ≤ p.1.1 := by
  induction qs with
  | nil => intro qi p hp; simp [collectRefsFrom] at hp
  | cons hd tl ih =>
    intro qi p hp
    rw [collectRefsFrom] at hp
    rcases List.mem_append.mp hp with h | h
    · cases hpron : hd.pronunciation with
      | none => rw [hpron] at h; simp at h
      | some m =>
        rw [hpron] at h
        obtain ⟨pe, _, hsome⟩ := List.mem_filterMap.mp h
        obtain ⟨t, _, _, hpeq⟩ := refEntryOf_eq_some qi pe p hsome
        rw [hpeq]
    · have := ih (qi + 1) p h
      omega

theorem filterMap_sublist_map {α β : Type _} (l : List α) (g : α → Option β) (f : α → β)
    (h : ∀ a b, g a = some b → b = f a) : List.Sublist (l.filterMap g) (l.map f) := by
  induction l with
  | nil => simp
  | cons hd tl ih =>
    rw [List.filterMap_cons, List.map_cons]
    cases hg : g hd with
    | none => exact List.Sublist.cons (f hd) ih
    | some b => rw [h hd b hg]; exact List.Sublist.cons₂ (f hd) ih

theorem collectRefsFrom_fst_nodup (qs : List Question) :
    ∀ (qi : Nat),
      (∀ q ∈ qs, ∀ m, q.pronunciation = some m → (m.map Prod.fst).Nodup) →
      ((collectRefsFrom qi qs).map Prod.fst).Nodup := by
  induction qs with
  | nil => intro qi _; simp [collectRefsFrom]
  | cons hd tl ih =>
    intro qi hkeys
    rw [collectRefsFrom, List.map_append]
    apply List.Nodup.append
    · cases hpron : hd.pronunciation with
      | none => simp
      | some m =>
        rw [List.map_filterMap]
        have hsub : List.Sublist
            (m.filterMap (fun pe => (refEntryOf qi pe).map Prod.fst))
            (m.map (fun pe => ((qi, pe.1) : ARef))) := by
          apply filterMap_sublist_map
          intro pe b hb
          obtain ⟨p, hp, hpb⟩ := Option.map_eq_some'.mp hb
          obtain ⟨t, _, _, hpeq⟩ := refEntryOf_eq_some qi pe p hp
          rw [← hpb, hpeq]
        apply List.Sublist.nodup hsub
        have hmm : m.map (fun pe => ((qi, pe.1) : ARef)) =
            (m.map Prod.fst).map (fun c => ((qi, c) : ARef)) := by
          rw [List.map_map]
          rfl
        rw [hmm]
        apply List.Nodup.map
        · intro a b hab
          exact (Prod.ext_iff.mp hab).2
        · exact hkeys hd (List.mem_cons_self _ _) m hpron
    · exact ih (qi + 1) (fun q hq => hkeys q (List.mem_cons_of_mem _ hq))
    · intro a ha1 ha2
      have ha1' : a.1 = qi := by
        cases hpron : hd.pronunciation with
        | none => rw [hpron] at ha1; simp at ha1
        | some m =>
          rw [hpron] at ha1
          obtain ⟨p, hp, hpa⟩ := List.mem_map.mp ha1
          obtain ⟨pe, _, hsome⟩ := List.mem_filterMap.mp hp
          obtain ⟨t, _, _, hpeq⟩ := refEntryOf_eq_some qi pe p hsome
          rw [← hpa, hpeq]
      obtain ⟨p, hp, hpa⟩ := List.mem_map.mp ha2
      have := collectRefsFrom_fst_le tl (qi + 1) p hp
      rw [← hpa] at ha1'
      omega

theorem keys_map_modifyRefs (h : String) (a : ARef) :
    ∀ (m : List (String × Bucket)),
      (m.map (fun p => if p.1 = h then (p.1, { p.2 with refs := p.2.refs ++ [a] }) else p)).map
        Prod.fst = m.map Prod.fst := by
  intro m
  induction m with
  | nil => rfl
  | cons hd tl ih => by_cases hk : hd.1 = h <;> simp [hk, ih]

theorem mapModify_id (h : String) (a : ARef) :
    ∀ (m : List (String × Bucket)), (∀ p ∈ m, ¬ p.1 = h) →
      m.map (fun p => if p.1 = h then (p.1, { p.2 with refs := p.2.refs ++ [a] }) else p) = m := by
  intro m
  induction m with
  | nil => intro _; rfl
  | cons hd tl ih =>
    intro hall
    have hk : ¬ hd.1 = h := hall hd (List.mem_cons_self _ _)
    simp only [List.map_cons, if_neg hk]
    rw [ih (fun p hp => hall p (List.mem_cons_of_mem _ hp))]

theorem ttsMapInsert_keys_nodup (hash : String → String) (m : List (String × Bucket))
    (rt : ARef × String) (hnd : (m.map Prod.fst).Nodup) :
    ((ttsMapInsert hash m rt).map Prod.fst).Nodup := by
  rw [ttsMapInsert]
  by_cases hany : m.any (fun p => p.1 == hash rt.2)
  · rw [if_pos hany, keys_map_modifyRefs]
    exact hnd
  · rw [if_neg hany, List.map_append]
    have hnot : hash rt.2 ∉ m.map Prod.fst := by
      intro hmem
      apply hany
      obtain ⟨p, hp, hfst⟩ := List.mem_map.mp hmem
      exact List.any_eq_true.mpr ⟨p, hp, by simp [hfst]⟩
    simp [List.nodup_append, hnot, hnd]

theorem foldl_ttsMapInsert_keys_nodup (hash : String → String) (l : List (ARef × String)) :
    ∀ acc, (acc.map Prod.fst).Nodup →
      (((l.foldl (ttsMapInsert hash) acc)).map Prod.fst).Nodup := by
  induction l with
  | nil => intro acc h; exact h
  | cons hd tl ih =>
    intro acc h
    rw [List.foldl_cons]
    exact ih _ (ttsMapInsert_keys_nodup hash acc hd h)

theorem buildTtsMap_keys_nodup (hash : String → String) (qs : List Question) :
    ((buildTtsMap hash qs).map Prod.fst).Nodup := by
  rw [buildTtsMap]
  exact foldl_ttsMapInsert_keys_nodup hash (collectRefs qs) [] (by simp)

theorem allRefs_cons (p : String × Bucket) (m : List (String × Bucket)) :
    allRefs (p :: m) = p.2.refs ++ allRefs m := by
  simp [allRefs]

theorem allRefs_modifyRefs (h : String) (a : ARef) :
    ∀ (m : List (String × Bucket)), (m.map Prod.fst).Nodup →
      m.any (fun p => p.1 == h) = true →
      List.Perm
        (allRefs (m.map (fun p =>
          if p.1 = h then (p.1, { p.2 with refs := p.2.refs ++ [a] }) else p)))
        (allRefs m ++ [a]) := by
  intro m
  induction m with
  | nil => intro _ hany; simp at hany
  | cons hd tl ih =>
    intro hnd hany
    have hnd' := hnd
    rw [List.map_cons, List.nodup_cons] at hnd'
    by_cases hk : hd.1 = h
    · have htl : ∀ p ∈ tl, ¬ p.1 = h := by
        intro p hp hph
        have hmem : hd.1 ∈ tl.map Prod.fst := by
          rw [hk, ← hph]
          exact List.mem_map_of_mem Prod.fst hp
        exact hnd'.1 hmem
      rw [List.map_cons, if_pos hk, mapModify_id h a tl htl, allRefs_cons, allRefs_cons]
      simp only [List.append_assoc]
      exact List.Perm.append_left hd.2.refs List.perm_append_comm
    · have hd1 : (hd.1 == h) = false := by simpa using hk
      have hany' : tl.any (fun p => p.1 == h) = true := by
        rw [List.any_cons, hd1] at hany
        simpa using hany
      rw [List.map_cons, if_neg hk, allRefs_cons, allRefs_cons]
      simp only [List.append_assoc]
      exact List.Perm.append_left hd.2.refs (ih hnd'.2 hany')

theorem allRefs_ttsMapInsert (hash : String → String) (m : List (String × Bucket))
    (rt : ARef × String) (hnd : (m.map Prod.fst).Nodup) :
    List.Perm (allRefs (ttsMapInsert hash m rt)) (allRefs m ++ [rt.1]) := by
  rw [ttsMapInsert]
  by_cases hany : m.any (fun p => p.1 == hash rt.2)
  · rw [if_pos hany]
    exact allRefs_modifyRefs (hash rt.2) rt.1 m hnd hany
  · rw [if_neg hany]
    have : allRefs (m ++ [(hash rt.2, ⟨rt.2, [rt.1]⟩)]) = allRefs m ++ [rt.1] := by
      simp [allRefs]
    rw [this]

theorem allRefs_foldl (hash : String → String) (l : List (ARef × String)) :
    ∀ acc, (acc.map Prod.fst).Nodup →
      List.Perm (allRefs (l.foldl (ttsMapInsert hash) acc))
        (allRefs acc ++ l.map Prod.fst) := by
  induction l with
  | nil => intro acc _; simp
  | cons hd tl ih =>
    intro acc hnd
    rw [List.foldl_cons, List.map_cons]
    have h1 := ih (ttsMapInsert hash acc hd) (ttsMapInsert_keys_nodup hash acc hd hnd)
    have h2 := (allRefs_ttsMapInsert hash acc hd hnd).append_right (tl.map Prod.fst)
    have h3 := h1.trans h2
    simpa [List.append_assoc] using h3

theorem allRefs_buildTtsMap (hash : String → String) (qs : List Question) :
    List.Perm (allRefs (buildTtsMap hash qs)) ((collectRefs qs).map Prod.fst) := by
  have := allRefs_foldl hash (collectRefs qs) [] (by simp)
  simpa [buildTtsMap, allRefs] using this

theorem allRefs_buildTtsMap_nodup (hash : String → String) (qs : List Question)
    (hkeys : ∀ q ∈ qs, ∀ m, q.pronunciation = some m → (m.map Prod.fst).Nodup) :
    (allRefs (buildTtsMap hash qs)).Nodup :=
  (allRefs_buildTtsMap hash qs).nodup_iff.mpr (collectRefsFrom_fst_nodup qs 0 hkeys)

theorem bucket_mem_ttsMapInsert_preserve (hash : String → String)
    (m : List (String × Bucket)) (rt : ARef × String) (key : String) (b : Bucket)
    (r : ARef) (hb : (key, b) ∈ m) (hr : r ∈ b.refs) :
    ∃ b', (key, b') ∈ ttsMapInsert hash m rt ∧ r ∈ b'.refs := by
  rw [ttsMapInsert]
  by_cases hany : m.any (fun p => p.1 == hash rt.2)
  · rw [if_pos hany]
    by_cases hk : key = hash rt.2
    · refine ⟨{ b with refs := b.refs ++ [rt.1] }, ?_, by simp [hr]⟩
      have := List.mem_map_of_mem
        (fun p => if p.1 = hash rt.2 then (p.1, { p.2 with refs := p.2.refs ++ [rt.1] }) else p)
        hb
      simpa [hk] using this
    · refine ⟨b, ?_, hr⟩
      have := List.mem_map_of_mem
        (fun p => if p.1 = hash rt.2 then (p.1, { p.2 with refs := p.2.refs ++ [rt.1] }) else p)
        hb
      simpa [hk] using this
  · rw [if_neg hany]
    exact ⟨b, List.mem_append_left _ hb, hr⟩

theorem bucket_mem_ttsMapInsert_new (hash : String → String)
    (m : List (String × Bucket)) (r : ARef) (t : String) :
    ∃ b, (hash t, b) ∈ ttsMapInsert hash m (r, t) ∧ r ∈ b.refs := by
  rw [ttsMapInsert]
  dsimp only
  by_cases hany : m.any (fun p => p.1 == hash t)
  · rw [if_pos hany]
    obtain ⟨p, hp, hpk⟩ := List.any_eq_true.mp hany
    have hpk' : p.1 = hash t := by simpa using hpk
    refine ⟨{ p.2 with refs := p.2.refs ++ [r] }, ?_, by simp⟩
    have := List.mem_map_of_mem
      (fun p => if p.1 = hash t then (p.1, { p.2 with refs := p.2.refs ++ [r] }) else p)
      hp
    simpa [hpk'] using this
  · rw [if_neg hany]
    exact ⟨⟨t, [r]⟩, List.mem_append_right _ (by simp), by simp⟩

theorem bucket_mem_foldl (hash : String → String) (l : List (ARef × String)) :
    ∀ acc (r : ARef) (t : String),
      ((r, t) ∈ l ∨ ∃ b, (hash t, b) ∈ acc ∧ r ∈ b.refs) →
      ∃ b, (hash t, b) ∈ l.foldl (ttsMapInsert hash) acc ∧ r ∈ b.refs := by
  induction l with
  | nil =>
    intro acc r t h
    rcases h with h | h
    · simp at h
    · exact h
  | cons hd tl ih =>
    intro acc r t h
    rw [List.foldl_cons]
    apply ih
    rcases h with hmem | ⟨b, hb, hr⟩
    · rcases List.mem_cons.mp hmem with heq | hmem'
      · right
        rw [← heq]
        exact bucket_mem_ttsMapInsert_new hash acc r t
      · left
        exact hmem'
    · right
      exact bucket_mem_ttsMapInsert_preserve hash acc hd (hash t) b r hb hr

theorem bucket_mem_buildTtsMap (hash : String → String) (qs : List Question)
    (r : ARef) (t : String) (h : ttsAt qs r = some t) (hne : ¬ t = "") :
    ∃ b, (hash t, b) ∈ buildTtsMap hash qs ∧ r ∈ b.refs := by
  rw [buildTtsMap]
  exact bucket_mem_foldl hash (collectRefs qs) [] r t (Or.inl (mem_collectRefs qs r t h hne))

theorem refs_unique (bs : List (String × Bucket)) (hnd : (allRefs bs).Nodup)
    (k0 : String) (b0 : Bucket) (hmem : (k0, b0) ∈ bs) (r : ARef) (hr : r ∈ b0.refs) :
    ∀ p ∈ bs, r ∈ p.2.refs → p = (k0, b0) := by
  obtain ⟨u, v, huv⟩ := List.append_of_mem hmem
  subst huv
  intro p hp hrp
  have hall : allRefs (u ++ (k0, b0) :: v) = allRefs u ++ (b0.refs ++ allRefs v) := by
    simp [allRefs]
  rw [hall, List.nodup_append] at hnd
  rcases List.mem_append.mp hp with hu | hcv
  · have hru : r ∈ allRefs u := by
      rw [allRefs]
      exact List.mem_flatMap.mpr ⟨p, hu, hrp⟩
    exact absurd (List.mem_append_left _ hr) (hnd.2.2 hru)
  · rcases List.mem_cons.mp hcv with heq | hv
    · exact heq
    · have hnd2 := hnd.2.1
      rw [List.nodup_append] at hnd2
      have hrv : r ∈ allRefs v := by
        rw [allRefs]
        exact List.mem_flatMap.mpr ⟨p, hv, hrp⟩
      exact absurd hrv (hnd2.2.2 hr)

theorem entryAt_foldl_setAudioRef_isSome (f : String) (refs : List ARef) :
    ∀ (qs : List Question) (r : ARef),
      (entryAt (refs.foldl (setAudioRef f) qs) r).isSome = (entryAt qs r).isSome := by
  induction refs with
  | nil => intro qs r; rfl
  | cons hd tl ih =>
    intro qs r
    rw [List.foldl_cons, ih, entryAt_setAudioRef_isSome]

theorem audioAt_foldl_setAudioRef (f : String) (refs : List ARef) :
    ∀ (qs : List Question) (r : ARef),
      (r ∈ refs → (entryAt qs r).isSome = true →
        audioAt (refs.foldl (setAudioRef f) qs) r = some f) ∧
      (r ∉ refs → audioAt (refs.foldl (setAudioRef f) qs) r = audioAt qs r) := by
  induction refs with
  | nil =>
    intro qs r
    exact ⟨fun h => absurd h (List.not_mem_nil r), fun _ => rfl⟩
  | cons hd tl ih =>
    intro qs r
    constructor
    · intro hmem hsome
      rw [List.foldl_cons]
      by_cases hhd : r = hd
      · subst hhd
        by_cases htl : r ∈ tl
        · exact (ih _ r).1 htl (by rw [entryAt_setAudioRef_isSome]; exact hsome)
        · rw [(ih _ r).2 htl]
          exact audioAt_setAudioRef_same f qs r hsome
      · have htl : r ∈ tl := by
          rcases List.mem_cons.mp hmem with h | h
          · exact absurd h hhd
          · exact h
        exact (ih _ r).1 htl (by rw [entryAt_setAudioRef_isSome]; exact hsome)
    · intro hnmem
      rw [List.foldl_cons]
      have hhd : ¬ r = hd := fun h => hnmem (h ▸ List.mem_cons_self _ _)
      have htl : r ∉ tl := fun h => hnmem (List.mem_cons_of_mem _ h)
      rw [(ih _ r).2 htl, audioAt_setAudioRef_other f qs hd r hhd]

theorem audioAt_applyBucket_mem (f : String) (b : Bucket) (qs : List Question) (r : ARef)
    (hmem : r ∈ b.refs) (hsome : (entryAt qs r).isSome = true) :
    audioAt (applyBucket f b qs) r = some f :=
  (audioAt_foldl_setAudioRef f b.refs qs r).1 hmem hsome

theorem audioAt_applyBucket_notMem (f : String) (b : Bucket) (qs : List Question) (r : ARef)
    (h : r ∉ b.refs) : audioAt (applyBucket f b qs) r = audioAt qs r :=
  (audioAt_foldl_setAudioRef f b.refs qs r).2 h

theorem entryAt_applyBucket_isSome (f : String) (b : Bucket) (qs : List Question) (r : ARef) :
    (entryAt (applyBucket f b qs) r).isSome = (entryAt qs r).isSome :=
  entryAt_foldl_setAudioRef_isSome f b.refs qs r

theorem applyBuckets_cons (cond : String × Bucket → Bool) (hd : String × Bucket)
    (tl : List (String × Bucket)) (qs : List Question) :
    applyBuckets cond (hd :: tl) qs =
      applyBuckets cond tl
        (if cond hd then applyBucket (hd.1 ++ ".mp3") hd.2 qs else qs) := rfl

theorem entryAt_applyBuckets_isSome (cond : String × Bucket → Bool)
    (bs : List (String × Bucket)) :
    ∀ (qs : List Question) (r : ARef),
      (entryAt (applyBuckets cond bs qs) r).isSome = (entryAt qs r).isSome := by
  induction bs with
  | nil => intro qs r; rfl
  | cons hd tl ih =>
    intro qs r
    rw [applyBuckets_cons, ih]
    by_cases hc : cond hd
    · rw [if_pos hc, entryAt_applyBucket_isSome]
    · rw [if_neg hc]

theorem audioAt_applyBuckets_untouched (cond : String × Bucket → Bool)
    (bs : List (String × Bucket)) :
    ∀ (qs : List Question) (r : ARef),
      (∀ p ∈ bs, cond p = true → r ∉ p.2.refs) →
      audioAt (applyBuckets cond bs qs) r = audioAt qs r := by
  induction bs with
  | nil => intro qs r _; rfl
  | cons hd tl ih =>
    intro qs r hall
    rw [applyBuckets_cons, ih _ r (fun p hp => hall p (List.mem_cons_of_mem _ hp))]
    by_cases hc : cond hd
    · rw [if_pos hc, audioAt_applyBucket_notMem _ _ _ _ (hall hd (List.mem_cons_self _ _) hc)]
    · rw [if_neg hc]

theorem audioAt_applyBuckets_wired (cond : String × Bucket → Bool)
    (bs : List (String × Bucket)) (qs : List Question) (r : ARef) (k0 : String) (b0 : Bucket)
    (hkeysN : (bs.map Prod.fst).Nodup)
    (hmem : (k0, b0) ∈ bs) (hr : r ∈ b0.refs)
    (huniq : ∀ p ∈ bs, r ∈ p.2.refs → p = (k0, b0))
    (hcond : cond (k0, b0) = true)
    (hsome : (entryAt qs r).isSome = true) :
    audioAt (applyBuckets cond bs qs) r = some (k0 ++ ".mp3") := by
  obtain ⟨u, v, huv⟩ := List.append_of_mem hmem
  have huniq' := huniq
  rw [huv] at huniq' hkeysN
  have happ : applyBuckets cond (u ++ (k0, b0) :: v) qs =
      applyBuckets cond v
        (if cond (k0, b0) then applyBucket (k0 ++ ".mp3") b0 (applyBuckets cond u qs)
         else applyBuckets cond u qs) := by
    simp only [applyBuckets, List.foldl_append, List.foldl_cons]
  rw [huv, happ, if_pos hcond]
  have husome : (entryAt (applyBuckets cond u qs) r).isSome = true := by
    rw [entryAt_applyBuckets_isSome]
    exact hsome
  have hv : ∀ p ∈ v, cond p = true → r ∉ p.2.refs := by
    intro p hp _ hrp
    have hpk := huniq' p (List.mem_append_right _ (List.mem_cons_of_mem _ hp)) hrp
    rw [hpk] at hp
    have hkv : k0 ∈ v.map Prod.fst := List.mem_map_of_mem Prod.fst hp
    rw [List.map_append, List.map_cons] at hkeysN
    have hndv := (List.nodup_append.mp hkeysN).2.1
    exact (List.nodup_cons.mp hndv).1 hkv
  rw [audioAt_applyBuckets_untouched cond v _ r hv]
  exact audioAt_applyBucket_mem _ _ _ _ hr husome

theorem mem_toProcessOf (onDisk : String → Bool) (m : List (String × Bucket))
    (p : String × Bucket) :
    p ∈ toProcessOf onDisk m ↔ p ∈ m ∧ onDisk (p.1 ++ ".mp3") = false := by
  rw [toProcessOf, List.mem_filter]
  simp

theorem toProcessOf_keys_nodup (onDisk : String → Bool) (m : List (String × Bucket))
    (h : (m.map Prod.fst).Nodup) : ((toProcessOf onDisk m).map Prod.fst).Nodup := by
  apply List.Sublist.nodup _ h
  exact (List.filter_sublist m).map Prod.fst

theorem runAudio_wires_ref (hash : String → String) (onDisk synthOk : String → Bool)
    (qs : List Question)
    (hkeys : ∀ q ∈ qs, ∀ m, q.pronunciation = some m → (m.map Prod.fst).Nodup)
    (hcomplete : ∀ p ∈ toProcessOf onDisk (buildTtsMap hash qs), synthOk p.2.ttsText = true)
    (r : ARef) (t : String) (h : ttsAt qs r = some t) (hne : ¬ t = "") :
    audioAt (runAudio hash onDisk synthOk qs) r = some (hash t ++ ".mp3") := by
  obtain ⟨b0, hmem, hr⟩ := bucket_mem_buildTtsMap hash qs r t h hne
  have hndall := allRefs_buildTtsMap_nodup hash qs hkeys
  have huniq := refs_unique (buildTtsMap hash qs) hndall (hash t) b0 hmem r hr
  have hkeysN := buildTtsMap_keys_nodup hash qs
  have hsome : (entryAt qs r).isSome = true := entryAt_isSome_of_ttsAt qs r t h
  rw [runAudio]
  by_cases hdisk : onDisk (hash t ++ ".mp3") = true
  · have hph1 : audioAt
        (applyBuckets (fun p => onDisk (p.1 ++ ".mp3")) (buildTtsMap hash qs) qs) r =
        some (hash t ++ ".mp3") :=
      audioAt_applyBuckets_wired _ _ qs r (hash t) b0 hkeysN hmem hr huniq hdisk hsome
    have hph2 : ∀ p ∈ toProcessOf onDisk (buildTtsMap hash qs),
        (fun p => synthOk p.2.ttsText) p = true → r ∉ p.2.refs := by
      intro p hp _ hrp
      obtain ⟨hpm, hpd⟩ := (mem_toProcessOf onDisk _ p).mp hp
      have hpk := huniq p hpm hrp
      rw [hpk] at hpd
      exact absurd hdisk (by simp_all)
    rw [audioAt_applyBuckets_untouched _ _ _ r hph2]
    exact hph1
  · have hdisk' : onDisk (hash t ++ ".mp3") = false := by
      revert hdisk
      cases onDisk (hash t ++ ".mp3") <;> simp
    have hph1 : audioAt
        (applyBuckets (fun p => onDisk (p.1 ++ ".mp3")) (buildTtsMap hash qs) qs) r =
        audioAt qs r := by
      apply audioAt_applyBuckets_untouched
      intro p hp hc hrp
      have hpk := huniq p hp hrp
      rw [hpk] at hc
      exact absurd hc (by simp [hdisk'])
    have hmem2 : (hash t, b0) ∈ toProcessOf onDisk (buildTtsMap hash qs) :=
      (mem_toProcessOf _ _ _).mpr ⟨hmem, hdisk'⟩
    have hcond : synthOk (hash t, b0).2.ttsText = true := hcomplete _ hmem2
    have huniq2 : ∀ p ∈ toProcessOf onDisk (buildTtsMap hash qs),
        r ∈ p.2.refs → p = (hash t, b0) :=
      fun p hp => huniq p ((mem_toProcessOf _ _ _).mp hp).1
    have hkeysN2 := toProcessOf_keys_nodup onDisk _ hkeysN
    have hsome2 : (entryAt
        (applyBuckets (fun p => onDisk (p.1 ++ ".mp3")) (buildTtsMap hash qs) qs) r).isSome =
        true := by
      rw [entryAt_applyBuckets_isSome]
      exact hsome
    exact audioAt_applyBuckets_wired _ _ _ r (hash t) b0 hkeysN2 hmem2 hr huniq2 hcond hsome2

/-- C2: the audio generation run is content-addressed by ttsText. Any two
references whose ttsText strings are character-for-character identical
are wired, after a completed run (every queued synthesis job succeeds),
to the very same hash-derived artifact filename `hash(text) + ".mp3"`;
the hash-keyed `ttsMap` has no duplicate keys, so identical texts collapse
into a single bucket and hence at most one synthesis job; and when the
artifact for a text already exists on disk, no job for that text's hash is
queued at all — the existing artifact is reused for every reference. -/
theorem audio_content_addressing
    (hash : String → String) (onDisk synthOk : String → Bool) (qs : List Question)
    (hkeys : ∀ q ∈ qs, ∀ m, q.pronunciation = some m → (m.map Prod.fst).Nodup)
    (hcomplete : ∀ p ∈ toProcessOf onDisk (buildTtsMap hash qs), synthOk p.2.ttsText = true)
    (r1 r2 : ARef) (t : String)
    (h1 : ttsAt qs r1 = some t) (h2 : ttsAt qs r2 = some t) (hne : ¬ t = "") :
    (audioAt (runAudio hash onDisk synthOk qs) r1 = some (hash t ++ ".mp3") ∧
     audioAt (runAudio hash onDisk synthOk qs) r2 = some (hash t ++ ".mp3")) ∧
    ((buildTtsMap hash qs).map Prod.fst).Nodup ∧
    (onDisk (hash t ++ ".mp3") = true →
      ∀ p ∈ toProcessOf onDisk (buildTtsMap hash qs), ¬ p.1 = hash t) := by
  refine ⟨⟨runAudio_wires_ref hash onDisk synthOk qs hkeys hcomplete r1 t h1 hne,
           runAudio_wires_ref hash onDisk synthOk qs hkeys hcomplete r2 t h2 hne⟩,
          buildTtsMap_keys_nodup hash qs, ?_⟩
  intro hdisk p hp hpk
  obtain ⟨_, hpd⟩ := (mem_toProcessOf onDisk _ p).mp hp
  rw [hpk, hdisk] at hpd
  exact absurd hpd (by simp)

/-- Witness for C2: one record, two characters 天 and 长 sharing the
ttsText 天长的天, identity hash, nothing on disk, a synthesizer that
succeeds: both references end up wired to the same artifact name. -/
theorem audio_content_addressing_witness :
    ttsAt [qWitC2] (0, '天') = some "天长的天" ∧
    ttsAt [qWitC2] (0, '长') = some "天长的天" ∧
    audioAt (runAudio (fun s => s) (fun _ => false) (fun _ => true) [qWitC2]) (0, '天') =
      some ("天长的天" ++ ".mp3") ∧
    audioAt (runAudio (fun s => s) (fun _ => false) (fun _ => true) [qWitC2]) (0, '长') =
      some ("天长的天" ++ ".mp3") := by
  have hkeys : ∀ q ∈ [qWitC2], ∀ m, q.pronunciation = some m → (m.map Prod.fst).Nodup := by
    intro q hq m hm
    simp only [List.mem_singleton] at hq
    subst hq
    injection hm with hm
    subst hm
    decide
  have h1 : ttsAt [qWitC2] (0, '天') = some "天长的天" := by decide
  have h2 : ttsAt [qWitC2] (0, '长') = some "天长的天" := by decide
  have hmain := audio_content_addressing (fun s => s) (fun _ => false) (fun _ => true)
    [qWitC2] hkeys (fun p hp => rfl) (0, '天') (0, '长') "天长的天" h1 h2 (by decide)
  exact ⟨h1, h2, hmain.1.1, hmain.1.2⟩

end BrainTeaser
